import Mathlib

/-!
# NC_listmap (libsrc4/nclistmap.c): a shallow embedding

The dual-index container of netcdf-c: an ordered vector of object pointers
(`NClist`) together with two hash indices (`NC_hashmap`), one keyed by the
object's name bytes and one keyed by the raw bytes of the object's id.

Conventions of the embedding

* A pointer is a natural number, `0` is `NULL`.  Objects live in a heap
  `Heap = Ptr → NC_OBJ`; the container stores pointers only, so a caller can
  change an object's name or id behind the container's back by changing the
  heap.
* A C string is the list of its bytes before the terminating NUL, so
  `strlen` is `List.length`.
* The container pointer itself is never `NULL`: the state is passed
  explicitly.  Allocation never fails.
* Dereferencing `NULL` is undefined behaviour; a function that can do so
  returns `Option`, with `none` for that outcome.
* `nclist.c`, `nchashmap.c` and the headers are not among the sources; the
  primitives used from them are modelled from the specification's section 6
  (interfaces consumed from collaborators) and marked as such.  The hash
  function `NC_hashmapkey` is a parameter `hash` of every function that
  (directly or through the index) calls it.
* `flags` of a hash slot is a C `int`; the values that occur stay far below
  its range, so it is a natural number without wrap-around.
-/

namespace NCListmap

/-- A pointer to an object; `0` is `NULL`. -/
abbrev Ptr := Nat

/-- The fields of `NC_OBJ` that the container reads: the name (bytes of the
C string) and the id (`size_t`). -/
structure NC_OBJ where
  name : List Nat
  id : Nat
deriving DecidableEq, Repr

/-- The objects the pointers refer to. -/
abbrev Heap := Ptr → NC_OBJ

/-- The raw bytes of a `size_t` id, as passed to the id index by
`&obj->id, sizeof(obj->id)`: eight bytes, least significant first. -/
def idKey (id : Nat) : List Nat :=
  [id % 256, id / 256 % 256, id / 65536 % 256, id / 16777216 % 256,
   id / 4294967296 % 256, id / 1099511627776 % 256,
   id / 281474976710656 % 256, id / 72057594037927936 % 256]

/-! ## The ordered store (`NClist`) -/

/-- Modelled from the spec: `length() → n` of the ordered-sequence primitive
(`nclist.c` is absent); the vector is the list of its elements. -/
def nclistlength (l : List Ptr) : Nat := l.length

/-- Modelled from the spec: `get(pos) → ref?` of the ordered-sequence
primitive (`nclist.c` is absent); a position at or beyond the length gives
`NULL`. -/
def nclistget (l : List Ptr) (index : Nat) : Ptr := l.getD index 0

/-- Modelled from the spec: `set(pos, ref)` of the ordered-sequence primitive
(`nclist.c` is absent); `ref` may be `NULL`.  A position at or beyond the
length is left alone (reading it gives `NULL` either way). -/
def nclistset (l : List Ptr) (index : Nat) (elem : Ptr) : List Ptr := l.set index elem

/-- Modelled from the spec: `append(ref)` of the ordered-sequence primitive
(`nclist.c` is absent); the new element goes to the end. -/
def nclistpush (l : List Ptr) (elem : Ptr) : List Ptr := l ++ [elem]

/-- Modelled from the spec: `duplicateRefs() → sequence` of the
ordered-sequence primitive (`nclist.c` is absent): a copy of the references. -/
def nclistdup (l : List Ptr) : List Ptr := l

/-- Modelled from the spec: `detachAndReset() → (sequence, n)` of the
ordered-sequence primitive (`nclist.c` is absent): the detached contents and
the vector reset to empty. -/
def nclistextract (l : List Ptr) : List Ptr × List Ptr := (l, [])

/-! ## The hash index (`NC_hashmap`) -/

/-- One slot of a hash table, with the fields `NC_listmap_verify` reads:
`flags` (an `int`: bit 1 = occupied, bit 128 = touched by the auditor),
`data` (the position), `hashkey`, `keysize` and the stored key bytes (held
inline or out of line in C; the bytes are the same). -/
structure NC_hentry where
  flags : Nat
  data : Nat
  hashkey : Nat
  keysize : Nat
  key : List Nat
deriving DecidableEq, Repr

/-- The hash index: `count` and the table of slots.  The C field `size` is
the number of slots of `table`. -/
structure NC_hashmap where
  count : Nat
  table : List NC_hentry
deriving DecidableEq, Repr

/-- The C field `size`: the number of allocated slots. -/
def NC_hashmap.size (hm : NC_hashmap) : Nat := hm.table.length

/-- A slot that was never used. -/
def emptySlot : NC_hentry := { flags := 0, data := 0, hashkey := 0, keysize := 0, key := [] }

/-- The slot is occupied and stores exactly the key `key`. -/
def slotHolds (key : List Nat) (e : NC_hentry) : Bool :=
  e.flags &&& 1 == 1 && e.keysize == key.length && e.key == key

/-- Modelled from the spec: the hash-index primitive's constructor
(`nchashmap.c` is absent): an empty table of `size` slots. -/
def NC_hashmapnew (size : Nat) : NC_hashmap :=
  { count := 0, table := List.replicate size emptySlot }

/-- Modelled from the spec: `lookup(keyBytes) → position?` of the hash-index
primitive (`nchashmap.c` is absent): the position recorded in the occupied
slot that stores the key.  Which slot of the table a key occupies is not
fixed by the spec and nothing in `nclistmap.c` depends on it; the table is
searched from its first slot. -/
def NC_hashmapget (hm : NC_hashmap) (key : List Nat) : Option Nat :=
  (hm.table.find? (slotHolds key)).map (fun e => e.data)

/-- Overwrite the position in the first slot holding `key`. -/
def tableOverwrite (key : List Nat) (data : Nat) : List NC_hentry → List NC_hentry
  | [] => []
  | e :: es =>
    if slotHolds key e then { e with data := data } :: es
    else e :: tableOverwrite key data es

/-- Put a slot into the first unoccupied place of the table, growing the
table when every slot is occupied. -/
def tableInsert (s : NC_hentry) : List NC_hentry → List NC_hentry
  | [] => [s]
  | e :: es => if e.flags &&& 1 == 0 then s :: es else e :: tableInsert s es

/-- Modelled from the spec: `insert(keyBytes, position)` of the hash-index
primitive (`nchashmap.c` is absent).  A key that is already registered has
its position overwritten (spec 4.1: the older index entry for that key is
silently overwritten); otherwise a free slot becomes occupied, storing the
position, the key, its size and its hash.  `hash` stands for
`NC_hashmapkey`, which is absent as well. -/
def NC_hashmapadd (hash : List Nat → Nat) (hm : NC_hashmap) (data : Nat)
    (key : List Nat) : NC_hashmap :=
  if (hm.table.find? (slotHolds key)).isSome then
    { hm with table := tableOverwrite key data hm.table }
  else
    { count := hm.count + 1,
      table := tableInsert
        { flags := 1, data := data, hashkey := hash key, keysize := key.length, key := key }
        hm.table }

/-- Free the first slot holding `key`. -/
def tableRemove (key : List Nat) : List NC_hentry → List NC_hentry
  | [] => []
  | e :: es => if slotHolds key e then emptySlot :: es else e :: tableRemove key es

/-- Modelled from the spec: `remove(keyBytes) → position?` of the hash-index
primitive (`nchashmap.c` is absent): `none` when the key is not registered,
otherwise the recorded position and the index without the key. -/
def NC_hashmapremove (hm : NC_hashmap) (key : List Nat) : Option (Nat × NC_hashmap) :=
  match hm.table.find? (slotHolds key) with
  | none => none
  | some e => some (e.data, { count := hm.count - 1, table := tableRemove key hm.table })

/-! ## The container (`NC_listmap`) -/

/-- The container: the vector and the two indices. -/
structure NC_listmap where
  list : List Ptr
  namemap : NC_hashmap
  idmap : NC_hashmap
deriving DecidableEq, Repr

/-- Table size used when the capacity hint is 0. -/
def DFALTTABLESIZE : Nat := 7

/-- `NC_listmap_init`: a fresh vector and two fresh indices sized from the
hint.  The previous contents of the fields are not read. -/
def NC_listmap_init (size0 : Nat) : Nat × NC_listmap :=
  let size := if size0 = 0 then DFALTTABLESIZE else size0
  (1, { list := [], namemap := NC_hashmapnew size, idmap := NC_hashmapnew size })

/-- `NC_listmap_get`: locate an object by name. -/
def NC_listmap_get (listmap : NC_listmap) (name : List Nat) : Ptr :=
  match NC_hashmapget listmap.namemap name with
  | none => 0
  | some index => nclistget listmap.list index

/-- `NC_listmap_iget`: locate an object by id. -/
def NC_listmap_iget (listmap : NC_listmap) (id : Nat) : Ptr :=
  match NC_hashmapget listmap.idmap (idKey id) with
  | none => 0
  | some index => nclistget listmap.list index

/-- `NC_listmap_ith`: the object at a position of the vector. -/
def NC_listmap_ith (listmap : NC_listmap) (index : Nat) : Ptr :=
  nclistget listmap.list index

/-- `NC_listmap_add`: push the object and register its position under its
name and under its id.  `obj->name` with `obj == NULL` is undefined
behaviour (`none`). -/
def NC_listmap_add (hash : List Nat → Nat) (h : Heap) (listmap : NC_listmap) (obj : Ptr) :
    Option (Nat × NC_listmap) :=
  let index := nclistlength listmap.list
  let list := nclistpush listmap.list obj
  if obj = 0 then none
  else
    some (1, { list := list,
               namemap := NC_hashmapadd hash listmap.namemap index (h obj).name,
               idmap := NC_hashmapadd hash listmap.idmap index (idKey (h obj).id) })

/-- `NC_listmap_del`: remove the object from both indices and put `NULL` at
its position of the vector.  The id is removed first; when the name is then
not registered the function returns 0 with the id already removed. -/
def NC_listmap_del (h : Heap) (listmap : NC_listmap) (target : Ptr) : Nat × NC_listmap :=
  if target = 0 then (0, listmap)
  else
    match NC_hashmapremove listmap.idmap (idKey (h target).id) with
    | none => (0, listmap)
    | some (pos, idmap) =>
      match NC_hashmapremove listmap.namemap (h target).name with
      | none => (0, { listmap with idmap := idmap })
      | some (_, namemap) =>
        (1, { list := nclistset listmap.list pos 0, namemap := namemap, idmap := idmap })

/-- `NC_listmap_idel`: remove the object stored at a position. -/
def NC_listmap_idel (h : Heap) (listmap : NC_listmap) (index : Nat) : Nat × NC_listmap :=
  let obj := nclistget listmap.list index
  if obj = 0 then (0, listmap) else NC_listmap_del h listmap obj

/-- `NC_listmap_next`: the pseudo iterator; the result is the return value
and the value stored through `datap`. -/
def NC_listmap_next (listmap : NC_listmap) (index : Nat) : Nat × Ptr :=
  let len := nclistlength listmap.list
  if len = 0 then (0, 0)
  else if index ≥ nclistlength listmap.list then (0, 0)
  else (index + 1, nclistget listmap.list index)

/-- `NC_listmap_dup`: a copy of the vector, `none` (`NULL`) when it is empty. -/
def NC_listmap_dup (listmap : NC_listmap) : Option (List Ptr) :=
  if nclistlength listmap.list = 0 then none else some (nclistdup listmap.list)

/-- `NC_listmap_clear`: the vector and both indices are released and the
three fields set to `NULL`, here an empty vector and indices without slots. -/
def NC_listmap_clear (_listmap : NC_listmap) : Nat × NC_listmap :=
  (1, { list := [], namemap := { count := 0, table := [] },
        idmap := { count := 0, table := [] } })

/-- The loop of `NC_listmap_rehash`: re-add every non-`NULL` element of the
detached contents, in order. -/
def rehashLoop (hash : List Nat → Nat) (h : Heap) :
    List Ptr → NC_listmap → Option (Nat × NC_listmap)
  | [], listmap => some (1, listmap)
  | tmp :: rest, listmap =>
    if tmp = 0 then rehashLoop hash h rest listmap
    else
      match NC_listmap_add hash h listmap tmp with
      | none => none
      | some (r, listmap1) =>
        if r = 0 then some (0, listmap1) else rehashLoop hash h rest listmap1

/-- `NC_listmap_rehash`: detach the contents, reset the container with the
old length as the capacity hint, re-add the non-`NULL` elements. -/
def NC_listmap_rehash (hash : List Nat → Nat) (h : Heap) (listmap : NC_listmap) :
    Option (Nat × NC_listmap) :=
  let size := nclistlength listmap.list
  let contents := (nclistextract listmap.list).1
  let cleared := NC_listmap_clear { listmap with list := (nclistextract listmap.list).2 }
  if cleared.1 = 0 then some (0, cleared.2)
  else
    let fresh := NC_listmap_init size
    if fresh.1 = 0 then some (0, fresh.2)
    else rehashLoop hash h contents fresh.2

/-! ## The auditor (`NC_listmap_verify`) -/

/-- The comparison `memcmp(object->name, key, keysize) == 0`: the first
`keysize` bytes of the object's name (a C string, so followed by its NUL)
against the stored key bytes. -/
def memcmpName (name : List Nat) (key : List Nat) (keysize : Nat) : Bool :=
  (name ++ [0]).take keysize == key.take keysize

/-- First loop of `NC_listmap_verify` (map to vector): every occupied slot of
the name index must point at a non-`NULL` element of the vector whose name
starts with the stored key bytes.  Returns the error count. -/
def verifyMapToVector (h : Heap) (l : List Ptr) : List NC_hentry → Nat → Nat
  | [], nerrs => nerrs
  | e :: es, nerrs =>
    if e.flags &&& 1 = 0 then verifyMapToVector h l es nerrs
    else
      let object := nclistget l e.data
      if object = 0 then verifyMapToVector h l es (nerrs + 1)
      else if memcmpName (h object).name e.key e.keysize then verifyMapToVector h l es nerrs
      else verifyMapToVector h l es (nerrs + 1)

/-- Inner loop of the vector walk, for one element `xp` of the vector: every
occupied slot whose stored hash equals the hash of `xp->name` is marked by
`flags += 128`; a slot found already marked counts as an error.  `xp->name`
is evaluated at every occupied slot, which is undefined behaviour (`none`)
when `xp` is `NULL`.  The result is the table, `match` and the error count. -/
def markSlots (hash : List Nat → Nat) (h : Heap) (xp : Ptr) :
    List NC_hentry → Nat → Nat → Option (List NC_hentry × Nat × Nat)
  | [], mtch, nerrs => some ([], mtch, nerrs)
  | e :: es, mtch, nerrs =>
    if e.flags &&& 1 = 0 then
      (markSlots hash h xp es mtch nerrs).map (fun r => (e :: r.1, r.2))
    else if xp = 0 then none
    else if e.hashkey = hash (h xp).name then
      let nerrs1 := if e.flags &&& 128 = 128 then nerrs + 1 else nerrs
      (markSlots hash h xp es 1 nerrs1).map
        (fun r => ({ e with flags := e.flags + 128 } :: r.1, r.2))
    else
      (markSlots hash h xp es mtch nerrs).map (fun r => (e :: r.1, r.2))

/-- The vector walk of `NC_listmap_verify`: for every position of the vector
run the inner loop; an element that matched no slot counts as an error. -/
def walkVector (hash : List Nat → Nat) (h : Heap) :
    List Ptr → List NC_hentry → Nat → Option (List NC_hentry × Nat)
  | [], table, nerrs => some (table, nerrs)
  | xp :: rest, table, nerrs =>
    match markSlots hash h xp table 0 nerrs with
    | none => none
    | some (table1, mtch, nerrs1) =>
      walkVector hash h rest table1 (if mtch = 0 then nerrs1 + 1 else nerrs1)

/-- Third loop of `NC_listmap_verify`: an occupied slot that the vector walk
did not mark counts as an error. -/
def countUnmarked : List NC_hentry → Nat → Nat
  | [], nerrs => nerrs
  | e :: es, nerrs =>
    if e.flags &&& 1 = 0 then countUnmarked es nerrs
    else if e.flags &&& 128 = 128 then countUnmarked es nerrs
    else countUnmarked es (nerrs + 1)

/-- Last loop of `NC_listmap_verify`: `e->flags &= ~128` on every slot. -/
def clearTouched (table : List NC_hentry) : List NC_hentry :=
  table.map (fun e => { e with flags := e.flags - (e.flags &&& 128) })

/-- `NC_listmap_verify`: the value returned (1 valid, 0 invalid) and the
container afterwards.  With `dump` set, the dump of the vector reads the name
of every element, which is undefined behaviour (`none`) when the vector
holds a `NULL`; what is printed is not modelled. -/
def NC_listmap_verify (hash : List Nat → Nat) (h : Heap) (lm : NC_listmap) (dump : Nat) :
    Option (Nat × NC_listmap) :=
  if dump ≠ 0 ∧ 0 ∈ lm.list then none
  else
    let nerrs := verifyMapToVector h lm.list lm.namemap.table 0
    if nclistlength lm.list = 0 ∨ lm.namemap.count = 0 then
      some (if nerrs > 0 then 0 else 1, lm)
    else
      match walkVector hash h lm.list lm.namemap.table nerrs with
      | none => none
      | some (table1, nerrs1) =>
        let nerrs2 := countUnmarked table1 nerrs1
        some (if nerrs2 > 0 then 0 else 1,
              { lm with namemap := { lm.namemap with table := clearTouched table1 } })

/-! ## Representation invariants, reachable states and scenarios -/

/-- The keys stored in the occupied slots of a table, in slot order. -/
def heldKeys (t : List NC_hentry) : List (List Nat) :=
  (t.filter (fun e => slotHolds e.key e)).map (fun e => e.key)

/-- Representation invariant of the hash index: no key is stored in two
occupied slots. -/
def NC_hashmap.Unique (hm : NC_hashmap) : Prop := (heldKeys hm.table).Nodup

/-- A sequence of `NC_listmap_add` calls, each of which has to return 1. -/
def addAll (hash : List Nat → Nat) (h : Heap) : List Ptr → NC_listmap → Option NC_listmap
  | [], lm => some lm
  | obj :: rest, lm =>
    match NC_listmap_add hash h lm obj with
    | none => none
    | some (r, lm1) => if r = 1 then addAll hash h rest lm1 else none

/-- Invariant I1 of the spec: every live entry at position `p` is registered
under its name and under its id with position `p`. -/
def I1 (h : Heap) (lm : NC_listmap) : Prop :=
  ∀ p, nclistget lm.list p ≠ 0 →
    NC_hashmapget lm.namemap (h (nclistget lm.list p)).name = some p ∧
    NC_hashmapget lm.idmap (idKey (h (nclistget lm.list p)).id) = some p

/-- Invariant I2 of the spec: every key present in either index refers to a
position holding a non-null entry. -/
def I2 (lm : NC_listmap) : Prop :=
  (∀ k p, NC_hashmapget lm.namemap k = some p → nclistget lm.list p ≠ 0) ∧
  (∀ k p, NC_hashmapget lm.idmap k = some p → nclistget lm.list p ≠ 0)

/-- The consistency of a container with the heap: both indices have unique
keys, I1 holds, every registered key is the current name (id) of the live
entry at the recorded position, and ids are in the range of `size_t`. -/
structure Inv (h : Heap) (lm : NC_listmap) : Prop where
  uname : lm.namemap.Unique
  uid : lm.idmap.Unique
  i1 : I1 h lm
  nameBack : ∀ k p, NC_hashmapget lm.namemap k = some p →
    nclistget lm.list p ≠ 0 ∧ (h (nclistget lm.list p)).name = k
  idBack : ∀ k p, NC_hashmapget lm.idmap k = some p →
    nclistget lm.list p ≠ 0 ∧ idKey (h (nclistget lm.list p)).id = k
  sizet : ∀ p, nclistget lm.list p ≠ 0 → (h (nclistget lm.list p)).id < 2 ^ 64

/-- The objects are non-null, their ids are in the range of `size_t`, their
names are pairwise distinct and their ids are pairwise distinct. -/
def DistinctObjs (h : Heap) (objs : List Ptr) : Prop :=
  (∀ obj ∈ objs, obj ≠ 0 ∧ (h obj).id < 2 ^ 64) ∧
  (objs.map (fun p => (h p).name)).Nodup ∧ (objs.map (fun p => (h p).id)).Nodup

instance (h : Heap) (objs : List Ptr) : Decidable (DistinctObjs h objs) := by
  delta DistinctObjs; infer_instance

/-- The live entries of a vector: its non-null elements, in order. -/
def liveEntries (l : List Ptr) : List Ptr := l.filter (fun p => p ≠ 0)

/-- A sample hash function for the concrete scenarios: the exclusive or of
the key bytes. -/
def sampleHash (key : List Nat) : Nat := key.foldl (fun a b => a ^^^ b) 0

/-- The heap of the spec's scenarios: object 1 is `{name: "x", id: 1}`,
object 2 is `{name: "y", id: 2}`. -/
def scenarioHeap : Heap := fun p =>
  if p = 1 then { name := [120], id := 1 }
  else if p = 2 then { name := [121], id := 2 }
  else { name := [], id := 0 }

/-- Scenario A of the spec: `init(0)`, `add({x,1})`, `add({y,2})`. -/
def scenarioA : NC_listmap :=
  { list := [1, 2],
    namemap := { count := 2, table :=
      [{ flags := 1, data := 0, hashkey := 120, keysize := 1, key := [120] },
       { flags := 1, data := 1, hashkey := 121, keysize := 1, key := [121] },
       emptySlot, emptySlot, emptySlot, emptySlot, emptySlot] },
    idmap := { count := 2, table :=
      [{ flags := 1, data := 0, hashkey := 1, keysize := 8, key := [1, 0, 0, 0, 0, 0, 0, 0] },
       { flags := 1, data := 1, hashkey := 2, keysize := 8, key := [2, 0, 0, 0, 0, 0, 0, 0] },
       emptySlot, emptySlot, emptySlot, emptySlot, emptySlot] } }

/-- The states reachable from `NC_listmap_init` by `NC_listmap_add` of an
object whose name and id differ from those of all live entries,
`NC_listmap_del` / `NC_listmap_idel` of a stored entry and
`NC_listmap_rehash`, the heap staying fixed (no external mutation). -/
inductive Reachable (hash : List Nat → Nat) (h : Heap) : NC_listmap → Prop
  | init (size0 : Nat) : Reachable hash h (NC_listmap_init size0).2
  | add {lm lm1 : NC_listmap} {obj : Ptr} : Reachable hash h lm → (h obj).id < 2 ^ 64 →
      (∀ e ∈ lm.list, e ≠ 0 → (h e).name ≠ (h obj).name) →
      (∀ e ∈ lm.list, e ≠ 0 → (h e).id ≠ (h obj).id) →
      NC_listmap_add hash h lm obj = some (1, lm1) → Reachable hash h lm1
  | del {lm : NC_listmap} {target : Ptr} : Reachable hash h lm → target ∈ lm.list →
      target ≠ 0 → Reachable hash h (NC_listmap_del h lm target).2
  | idel {lm : NC_listmap} {index : Nat} : Reachable hash h lm →
      nclistget lm.list index ≠ 0 → Reachable hash h (NC_listmap_idel h lm index).2
  | rehash {lm lm1 : NC_listmap} : Reachable hash h lm →
      NC_listmap_rehash hash h lm = some (1, lm1) → Reachable hash h lm1

/-- Scenario B of the spec: scenario A followed by `remove({x,1})`. -/
def scenarioB : NC_listmap :=
  { list := [0, 2],
    namemap := { count := 1, table :=
      [emptySlot,
       { flags := 1, data := 1, hashkey := 121, keysize := 1, key := [121] },
       emptySlot, emptySlot, emptySlot, emptySlot, emptySlot] },
    idmap := { count := 1, table :=
      [emptySlot,
       { flags := 1, data := 1, hashkey := 2, keysize := 8, key := [2, 0, 0, 0, 0, 0, 0, 0] },
       emptySlot, emptySlot, emptySlot, emptySlot, emptySlot] } }

/-- The heap with the name of one object replaced (an external mutation of
the object's name; the container is not told). -/
def setName (h : Heap) (obj : Ptr) (name : List Nat) : Heap :=
  fun p => if p = obj then { h p with name := name } else h p

/-- A heap with two objects of the same name: object 1 is `{x, 1}`, object 2
is `{x, 2}`. -/
def dupNameHeap : Heap := fun p =>
  if p = 1 then { name := [120], id := 1 }
  else if p = 2 then { name := [120], id := 2 }
  else { name := [], id := 0 }

instance (hm : NC_hashmap) : Decidable hm.Unique := by
  delta NC_hashmap.Unique; infer_instance

/-- The container after `init(0)`, `add(1)`, `add(2)` on `dupNameHeap`: the
second add overwrote the position registered under the name `x`. -/
def dupNameState : NC_listmap :=
  { list := [1, 2],
    namemap := { count := 1, table :=
      [{ flags := 1, data := 1, hashkey := 120, keysize := 1, key := [120] },
       emptySlot, emptySlot, emptySlot, emptySlot, emptySlot, emptySlot] },
    idmap := { count := 2, table :=
      [{ flags := 1, data := 0, hashkey := 1, keysize := 8, key := [1, 0, 0, 0, 0, 0, 0, 0] },
       { flags := 1, data := 1, hashkey := 2, keysize := 8, key := [2, 0, 0, 0, 0, 0, 0, 0] },
       emptySlot, emptySlot, emptySlot, emptySlot, emptySlot] } }

/-- Scenario C of the spec: scenario B followed by `rehash()`. -/
def scenarioC : NC_listmap :=
  { list := [2],
    namemap := { count := 1, table :=
      [{ flags := 1, data := 0, hashkey := 121, keysize := 1, key := [121] }, emptySlot] },
    idmap := { count := 1, table :=
      [{ flags := 1, data := 0, hashkey := 2, keysize := 8, key := [2, 0, 0, 0, 0, 0, 0, 0] },
       emptySlot] } }

/-- What the inner loop of the vector walk does to one slot when the element
under inspection has name hash `c`. -/
def touch (c : Nat) (e : NC_hentry) : NC_hentry :=
  if e.flags % 2 = 1 ∧ e.hashkey = c then { e with flags := e.flags + 128 } else e

/-- A slot as the hash index leaves it: unused, or occupied with `flags = 1`,
the size of its key and the hash of its key. -/
def SlotWF (hash : List Nat → Nat) (e : NC_hentry) : Prop :=
  e.flags = 0 ∨ (e.flags = 1 ∧ e.keysize = e.key.length ∧ e.hashkey = hash e.key)

/-- Representation invariant of the hash index: every slot is as the index
leaves it, no key is stored twice, and `count` is the number of stored keys. -/
def NC_hashmap.WF (hash : List Nat → Nat) (hm : NC_hashmap) : Prop :=
  (∀ e ∈ hm.table, SlotWF hash e) ∧ hm.Unique ∧ hm.count = (heldKeys hm.table).length

/-- What the whole vector walk does to one slot: the hashes of the elements'
names are applied in order. -/
def touchAll (cs : List Nat) (e : NC_hentry) : NC_hentry :=
  cs.foldl (fun s c => touch c s) e

/-- Scenario A after a failed remove: the name of object 1 was `z` while
`NC_listmap_del` ran on it, so its id was removed from the id index and the
name was then not found; vector and name index are those of scenario A. -/
def scenarioHalfRemoved : NC_listmap :=
  { scenarioA with
    idmap := { count := 1, table :=
      [emptySlot,
       { flags := 1, data := 1, hashkey := 2, keysize := 8, key := [2, 0, 0, 0, 0, 0, 0, 0] },
       emptySlot, emptySlot, emptySlot, emptySlot, emptySlot] } }

/-- The loop of the usage comment of `NC_listmap_next`,
`for(iter=0; NC_listmap_next(listmap,iter,&data); iter++) {f(data);}`, from
the cursor `iter` on: the values handed to `f`, in order.  `fuel` bounds the
number of calls of `NC_listmap_next`; `none` means the bound was reached
before the loop ended. -/
def nextLoop (listmap : NC_listmap) : Nat → Nat → Option (List Ptr)
  | 0, _ => none
  | fuel + 1, iter =>
    if (NC_listmap_next listmap iter).1 = 0 then some []
    else (nextLoop listmap fuel (iter + 1)).map
      (fun rest => (NC_listmap_next listmap iter).2 :: rest)

/-- The container `dupNameState` (`init(0)`, `add {x,1}`, `add {x,2}`) after
`NC_listmap_del` of object 2: the only name key is gone and position 1 is a
hole, while object 1 is still live at position 0. -/
def orphanState : NC_listmap :=
  { list := [1, 0],
    namemap := { count := 0, table :=
      [emptySlot, emptySlot, emptySlot, emptySlot, emptySlot, emptySlot, emptySlot] },
    idmap := { count := 1, table :=
      [{ flags := 1, data := 0, hashkey := 1, keysize := 8, key := [1, 0, 0, 0, 0, 0, 0, 0] },
       emptySlot, emptySlot, emptySlot, emptySlot, emptySlot, emptySlot] } }

/-! ## Lemmas -/

theorem slotHolds_emptySlot (k : List Nat) : slotHolds k emptySlot = false := by
  simp [slotHolds, emptySlot]

theorem slotHolds_key {k : List Nat} {e : NC_hentry} (h : slotHolds k e = true) :
    e.flags &&& 1 = 1 ∧ e.keysize = k.length ∧ e.key = k := by
  simpa [slotHolds, and_assoc] using h

theorem slotHolds_data (k : List Nat) (e : NC_hentry) (d : Nat) :
    slotHolds k { e with data := d } = slotHolds k e := rfl

theorem slotHolds_free {k : List Nat} {e : NC_hentry} (h : e.flags % 2 = 0) :
    slotHolds k e = false := by
  simp [slotHolds, Nat.and_one_is_mod, h]

theorem slotHolds_ne {k k' : List Nat} {e : NC_hentry} (h : slotHolds k e = true)
    (hne : k' ≠ k) : slotHolds k' e = false := by
  have hk := (slotHolds_key h).2.2
  cases hs : slotHolds k' e with
  | false => rfl
  | true => exact absurd ((slotHolds_key hs).2.2.symm.trans hk) hne

theorem slotHolds_new (hash : List Nat → Nat) (d : Nat) (k k' : List Nat) :
    slotHolds k' { flags := 1, data := d, hashkey := hash k, keysize := k.length, key := k }
      = decide (k' = k) := by
  by_cases h : k' = k
  · subst h; simp [slotHolds]
  · have h' : ¬ k = k' := fun e => h e.symm
    simp [slotHolds, h, h']

theorem find_replicate_empty (k : List Nat) (n : Nat) :
    (List.replicate n emptySlot).find? (slotHolds k) = none := by
  induction n with
  | zero => rfl
  | succ n ih => simp [List.replicate_succ, List.find?_cons, slotHolds_emptySlot, ih]

theorem NC_hashmapget_new (n : Nat) (k : List Nat) : NC_hashmapget (NC_hashmapnew n) k = none := by
  simp [NC_hashmapget, NC_hashmapnew, find_replicate_empty]

theorem find_tableOverwrite_same (k : List Nat) (d : Nat) (t : List NC_hentry) :
    ((tableOverwrite k d t).find? (slotHolds k)).map (fun e => e.data)
      = (t.find? (slotHolds k)).map (fun _ => d) := by
  induction t with
  | nil => rfl
  | cons e es ih =>
    by_cases h : slotHolds k e = true
    · simp [tableOverwrite, h, List.find?_cons, slotHolds_data]
    · simp only [Bool.not_eq_true] at h
      simp [tableOverwrite, h, List.find?_cons, ih]

theorem find_tableOverwrite_other {k k' : List Nat} (hne : k' ≠ k) (d : Nat)
    (t : List NC_hentry) :
    ((tableOverwrite k d t).find? (slotHolds k')).map (fun e => e.data)
      = (t.find? (slotHolds k')).map (fun e => e.data) := by
  induction t with
  | nil => rfl
  | cons e es ih =>
    by_cases h : slotHolds k e = true
    · simp [tableOverwrite, h, List.find?_cons, slotHolds_data, slotHolds_ne h hne]
    · simp only [Bool.not_eq_true] at h
      by_cases h' : slotHolds k' e = true
      · simp [tableOverwrite, h, List.find?_cons, h']
      · simp only [Bool.not_eq_true] at h'
        simp [tableOverwrite, h, List.find?_cons, h', ih]

theorem find_tableInsert (hash : List Nat → Nat) (d : Nat) (k k' : List Nat)
    (t : List NC_hentry) (hfree : t.find? (slotHolds k) = none) :
    ((tableInsert { flags := 1, data := d, hashkey := hash k, keysize := k.length, key := k }
        t).find? (slotHolds k')).map (fun e => e.data)
      = if k' = k then some d else (t.find? (slotHolds k')).map (fun e => e.data) := by
  induction t with
  | nil =>
    by_cases h : k' = k <;> simp [tableInsert, List.find?_cons, slotHolds_new, h]
  | cons e es ih =>
    have he : slotHolds k e = false := by
      cases hs : slotHolds k e with
      | false => rfl
      | true => simp [List.find?_cons, hs] at hfree
    have hes : es.find? (slotHolds k) = none := by
      simpa [List.find?_cons, he] using hfree
    by_cases hf : e.flags % 2 = 0
    · by_cases h : k' = k
      · simp [tableInsert, Nat.and_one_is_mod, hf, List.find?_cons, slotHolds_new, h]
      · simp [tableInsert, Nat.and_one_is_mod, hf, List.find?_cons, slotHolds_new, h, slotHolds_free hf]
    · by_cases h : k' = k
      · subst h
        simp [tableInsert, Nat.and_one_is_mod, hf, List.find?_cons, he]
        simpa using ih hes
      · by_cases h' : slotHolds k' e = true
        · simp [tableInsert, Nat.and_one_is_mod, hf, List.find?_cons, h', h]
        · simp only [Bool.not_eq_true] at h'
          simp [tableInsert, Nat.and_one_is_mod, hf, List.find?_cons, h', h]
          simpa [h] using ih hes

theorem NC_hashmapget_add (hash : List Nat → Nat) (hm : NC_hashmap) (d : Nat)
    (k k' : List Nat) :
    NC_hashmapget (NC_hashmapadd hash hm d k) k'
      = if k' = k then some d else NC_hashmapget hm k' := by
  unfold NC_hashmapadd NC_hashmapget
  cases hf : hm.table.find? (slotHolds k) with
  | none =>
    simp only [Option.isSome_none, Bool.false_eq_true, if_false]
    exact find_tableInsert hash d k k' hm.table hf
  | some e =>
    simp only [Option.isSome_some, if_true]
    by_cases h : k' = k
    · subst h
      rw [find_tableOverwrite_same, hf]; simp
    · rw [find_tableOverwrite_other h]; simp [h]

theorem slotHolds_self {k : List Nat} {e : NC_hentry} (h : slotHolds k e = true) :
    slotHolds e.key e = true := by
  rw [(slotHolds_key h).2.2]; exact h

theorem heldKeys_cons (e : NC_hentry) (es : List NC_hentry) :
    heldKeys (e :: es) = if slotHolds e.key e then e.key :: heldKeys es else heldKeys es := by
  unfold heldKeys
  by_cases h : slotHolds e.key e = true <;> simp [List.filter_cons, h]

theorem find_none_iff (k : List Nat) (t : List NC_hentry) :
    t.find? (slotHolds k) = none ↔ k ∉ heldKeys t := by
  induction t with
  | nil => simp [heldKeys]
  | cons e es ih =>
    rw [heldKeys_cons]
    by_cases h : slotHolds k e = true
    · have hk := (slotHolds_key h).2.2
      simp [List.find?_cons, h, slotHolds_self h, hk]
    · simp only [Bool.not_eq_true] at h
      by_cases h' : slotHolds e.key e = true
      · have hne : k ≠ e.key := by
          intro hk; rw [hk] at h; rw [h] at h'; exact Bool.noConfusion h'
        simp [List.find?_cons, h, h', ih, hne]
      · simp only [Bool.not_eq_true] at h'
        simp [List.find?_cons, h, h', ih]

theorem heldKeys_replicate (n : Nat) : heldKeys (List.replicate n emptySlot) = [] := by
  induction n with
  | zero => rfl
  | succ n ih => simp [List.replicate_succ, heldKeys_cons, slotHolds_emptySlot, ih]

theorem heldKeys_tableOverwrite (k : List Nat) (d : Nat) (t : List NC_hentry) :
    heldKeys (tableOverwrite k d t) = heldKeys t := by
  induction t with
  | nil => rfl
  | cons e es ih =>
    by_cases h : slotHolds k e = true
    · simp [tableOverwrite, h, heldKeys_cons, slotHolds_data]
    · simp only [Bool.not_eq_true] at h
      simp [tableOverwrite, h, heldKeys_cons, ih]

theorem heldKeys_tableInsert (hash : List Nat → Nat) (d : Nat) (k : List Nat)
    (t : List NC_hentry) :
    (heldKeys (tableInsert
        { flags := 1, data := d, hashkey := hash k, keysize := k.length, key := k } t)).Perm
      (k :: heldKeys t) := by
  induction t with
  | nil => simp [tableInsert, heldKeys_cons, slotHolds_new, heldKeys]
  | cons e es ih =>
    by_cases hf : e.flags % 2 = 0
    · simp [tableInsert, Nat.and_one_is_mod, hf, heldKeys_cons, slotHolds_new, slotHolds_free hf]
    · by_cases h' : slotHolds e.key e = true
      · simp only [tableInsert, Nat.and_one_is_mod, hf, heldKeys_cons, h', beq_iff_eq, if_false,
          if_true]
        exact (List.Perm.cons _ ih).trans (List.Perm.swap _ _ _)
      · simp only [Bool.not_eq_true] at h'
        simpa [tableInsert, Nat.and_one_is_mod, hf, heldKeys_cons, h'] using ih

theorem heldKeys_tableRemove (k : List Nat) (t : List NC_hentry) :
    heldKeys (tableRemove k t) = (heldKeys t).erase k := by
  induction t with
  | nil => rfl
  | cons e es ih =>
    by_cases h : slotHolds k e = true
    · have hk := (slotHolds_key h).2.2
      simp [tableRemove, h, heldKeys_cons, slotHolds_emptySlot, slotHolds_self h, hk]
    · simp only [Bool.not_eq_true] at h
      by_cases h' : slotHolds e.key e = true
      · have hne : e.key ≠ k := by
          intro hk; rw [hk] at h'; rw [h] at h'; exact Bool.noConfusion h'
        simp [tableRemove, h, heldKeys_cons, h', ih, List.erase_cons_tail, hne]
      · simp only [Bool.not_eq_true] at h'
        simp [tableRemove, h, heldKeys_cons, h', ih]

theorem find_tableRemove_other {k k' : List Nat} (hne : k' ≠ k) (t : List NC_hentry) :
    (tableRemove k t).find? (slotHolds k') = t.find? (slotHolds k') := by
  induction t with
  | nil => rfl
  | cons e es ih =>
    by_cases h : slotHolds k e = true
    · simp [tableRemove, h, List.find?_cons, slotHolds_emptySlot, slotHolds_ne h hne]
    · simp only [Bool.not_eq_true] at h
      simp [tableRemove, h, List.find?_cons, ih]

theorem Unique_new (n : Nat) : (NC_hashmapnew n).Unique := by
  simp [NC_hashmap.Unique, NC_hashmapnew, heldKeys_replicate]

theorem Unique_add (hash : List Nat → Nat) (hm : NC_hashmap) (d : Nat) (k : List Nat)
    (hu : hm.Unique) : (NC_hashmapadd hash hm d k).Unique := by
  unfold NC_hashmapadd NC_hashmap.Unique
  cases hf : hm.table.find? (slotHolds k) with
  | none =>
    simp only [Option.isSome_none, Bool.false_eq_true, if_false]
    rw [(heldKeys_tableInsert hash d k hm.table).nodup_iff]
    exact List.nodup_cons.mpr ⟨(find_none_iff k hm.table).mp hf, hu⟩
  | some e =>
    simp only [Option.isSome_some, if_true]
    rw [heldKeys_tableOverwrite]; exact hu

theorem NC_hashmapremove_none (hm : NC_hashmap) (k : List Nat) :
    NC_hashmapremove hm k = none ↔ NC_hashmapget hm k = none := by
  unfold NC_hashmapremove NC_hashmapget
  cases hm.table.find? (slotHolds k) <;> simp

theorem NC_hashmapremove_some {hm hm' : NC_hashmap} {k : List Nat} {d : Nat}
    (h : NC_hashmapremove hm k = some (d, hm')) :
    NC_hashmapget hm k = some d ∧ hm'.table = tableRemove k hm.table
      ∧ hm'.count = hm.count - 1 := by
  unfold NC_hashmapremove at h
  unfold NC_hashmapget
  cases hf : hm.table.find? (slotHolds k) with
  | none => simp [hf] at h
  | some e =>
    simp only [hf, Option.some.injEq, Prod.mk.injEq] at h
    obtain ⟨h1, h2⟩ := h
    subst h2
    simp [h1]

theorem NC_hashmapremove_of_get {hm : NC_hashmap} {k : List Nat} {d : Nat}
    (h : NC_hashmapget hm k = some d) :
    NC_hashmapremove hm k
      = some (d, { count := hm.count - 1, table := tableRemove k hm.table }) := by
  unfold NC_hashmapget at h
  unfold NC_hashmapremove
  cases hf : hm.table.find? (slotHolds k) with
  | none => simp [hf] at h
  | some e =>
    simp only [hf, Option.map_some', Option.some.injEq] at h
    simp [h]

theorem NC_hashmapget_remove_other {hm hm' : NC_hashmap} {k k' : List Nat} {d : Nat}
    (h : NC_hashmapremove hm k = some (d, hm')) (hne : k' ≠ k) :
    NC_hashmapget hm' k' = NC_hashmapget hm k' := by
  unfold NC_hashmapget
  rw [(NC_hashmapremove_some h).2.1, find_tableRemove_other hne]

theorem NC_hashmapget_remove_same {hm hm' : NC_hashmap} {k : List Nat} {d : Nat}
    (hu : hm.Unique) (h : NC_hashmapremove hm k = some (d, hm')) :
    NC_hashmapget hm' k = none := by
  unfold NC_hashmapget
  have : hm'.table.find? (slotHolds k) = none := by
    rw [find_none_iff, (NC_hashmapremove_some h).2.1, heldKeys_tableRemove]
    exact hu.not_mem_erase
  rw [this]; rfl

theorem Unique_remove {hm hm' : NC_hashmap} {k : List Nat} {d : Nat}
    (hu : hm.Unique) (h : NC_hashmapremove hm k = some (d, hm')) : hm'.Unique := by
  unfold NC_hashmap.Unique
  rw [(NC_hashmapremove_some h).2.1, heldKeys_tableRemove]
  exact hu.erase k

theorem idKey_inj {a b : Nat} (ha : a < 2 ^ 64) (hb : b < 2 ^ 64) (h : idKey a = idKey b) :
    a = b := by
  simp only [idKey, List.cons.injEq, and_true] at h
  omega

theorem nclistget_push_lt {l : List Ptr} {obj : Ptr} {p : Nat} (hp : p < l.length) :
    nclistget (nclistpush l obj) p = nclistget l p := by
  simp [nclistget, nclistpush, List.getD_eq_getElem?_getD, List.getElem?_append_left hp]

theorem nclistget_push_len (l : List Ptr) (obj : Ptr) :
    nclistget (nclistpush l obj) l.length = obj := by
  simp [nclistget, nclistpush, List.getD_eq_getElem?_getD]

theorem nclistget_ge {l : List Ptr} {p : Nat} (hp : l.length ≤ p) : nclistget l p = 0 := by
  simp [nclistget, List.getD_eq_getElem?_getD, List.getElem?_eq_none hp]

theorem nclistget_lt {l : List Ptr} {p : Nat} (h : nclistget l p ≠ 0) : p < l.length := by
  by_contra hp
  exact h (nclistget_ge (Nat.le_of_not_lt hp))

theorem nclistget_push_ne {l : List Ptr} {obj : Ptr} {p : Nat}
    (h : nclistget (nclistpush l obj) p ≠ 0) :
    (p < l.length ∧ nclistget (nclistpush l obj) p = nclistget l p) ∨
    (p = l.length ∧ nclistget (nclistpush l obj) p = obj) := by
  rcases Nat.lt_trichotomy p l.length with hp | hp | hp
  · exact Or.inl ⟨hp, nclistget_push_lt hp⟩
  · subst hp; exact Or.inr ⟨rfl, nclistget_push_len l obj⟩
  · exfalso; apply h; apply nclistget_ge; simp [nclistpush]; omega

theorem nclistget_set_same (l : List Ptr) (p : Nat) : nclistget (nclistset l p 0) p = 0 := by
  by_cases hp : p < l.length
  · simp [nclistget, nclistset, List.getD_eq_getElem?_getD, hp]
  · apply nclistget_ge; simp [nclistset]; omega

theorem nclistget_set_other (l : List Ptr) {p q : Nat} (v : Ptr) (hne : q ≠ p) :
    nclistget (nclistset l p v) q = nclistget l q := by
  simp [nclistget, nclistset, List.getD_eq_getElem?_getD, List.getElem?_set_ne (Ne.symm hne)]

theorem nclistget_mem {l : List Ptr} {obj : Ptr} (h : obj ∈ l) : ∃ p, nclistget l p = obj := by
  obtain ⟨n, hn, rfl⟩ := List.getElem_of_mem h
  exact ⟨n, by simp [nclistget, List.getD_eq_getElem?_getD, hn]⟩

theorem nclistget_mem_of_ne {l : List Ptr} {p : Nat} (h : nclistget l p ≠ 0) :
    nclistget l p ∈ l := by
  have hp := nclistget_lt h
  have : nclistget l p = l[p] := by simp [nclistget, List.getD_eq_getElem?_getD, hp]
  rw [this]; exact List.getElem_mem hp

theorem Inv_init (h : Heap) (size0 : Nat) : Inv h (NC_listmap_init size0).2 := by
  refine ⟨Unique_new _, Unique_new _, ?_, ?_, ?_, ?_⟩
  · intro p hp; exact absurd (nclistget_ge (Nat.zero_le p)) hp
  · intro k p hk; simp [NC_listmap_init, NC_hashmapget_new] at hk
  · intro k p hk; simp [NC_listmap_init, NC_hashmapget_new] at hk
  · intro p hp; exact absurd (nclistget_ge (Nat.zero_le p)) hp

theorem NC_listmap_add_eq (hash : List Nat → Nat) (h : Heap) (lm : NC_listmap) {obj : Ptr}
    (hobj : obj ≠ 0) :
    NC_listmap_add hash h lm obj
      = some (1, { list := nclistpush lm.list obj,
                   namemap := NC_hashmapadd hash lm.namemap lm.list.length (h obj).name,
                   idmap := NC_hashmapadd hash lm.idmap lm.list.length (idKey (h obj).id) }) := by
  simp [NC_listmap_add, hobj, nclistlength]

theorem Inv_add (hash : List Nat → Nat) {h : Heap} {lm lm1 : NC_listmap} {obj : Ptr} {r : Nat}
    (hinv : Inv h lm) (hsz : (h obj).id < 2 ^ 64)
    (hname : ∀ p, nclistget lm.list p ≠ 0 → (h (nclistget lm.list p)).name ≠ (h obj).name)
    (hid : ∀ p, nclistget lm.list p ≠ 0 → (h (nclistget lm.list p)).id ≠ (h obj).id)
    (hadd : NC_listmap_add hash h lm obj = some (r, lm1)) :
    r = 1 ∧ lm1.list = lm.list ++ [obj] ∧ Inv h lm1 := by
  have hobj : obj ≠ 0 := by
    intro h0; simp [NC_listmap_add, h0] at hadd
  rw [NC_listmap_add_eq hash h lm hobj] at hadd
  simp only [Option.some.injEq, Prod.mk.injEq] at hadd
  obtain ⟨hr, hlm⟩ := hadd
  subst hlm
  refine ⟨hr.symm, rfl, ?_⟩
  refine ⟨Unique_add _ _ _ _ hinv.uname, Unique_add _ _ _ _ hinv.uid, ?_, ?_, ?_, ?_⟩
  · intro p hp
    simp only [NC_hashmapget_add]
    rcases nclistget_push_ne hp with ⟨hlt, heq⟩ | ⟨hlen, heq⟩
    · simp only [heq] at hp ⊢
      have hn := hname p hp
      have hi := hid p hp
      have hi' : idKey (h (nclistget lm.list p)).id ≠ idKey (h obj).id :=
        fun e => hi (idKey_inj (hinv.sizet p hp) hsz e)
      simp only [hn, hi', if_false]
      exact hinv.i1 p hp
    · subst hlen
      simp [nclistget_push_len]
  · intro k p hk
    simp only [NC_hashmapget_add] at hk
    by_cases hkn : k = (h obj).name
    · simp only [hkn, if_true, Option.some.injEq] at hk
      subst hk
      simp only [nclistget_push_len]
      exact ⟨hobj, hkn.symm⟩
    · simp only [hkn, if_false] at hk
      have := hinv.nameBack k p hk
      rw [nclistget_push_lt (nclistget_lt this.1)]
      exact this
  · intro k p hk
    simp only [NC_hashmapget_add] at hk
    by_cases hkn : k = idKey (h obj).id
    · simp only [hkn, if_true, Option.some.injEq] at hk
      subst hk
      simp only [nclistget_push_len]
      exact ⟨hobj, hkn.symm⟩
    · simp only [hkn, if_false] at hk
      have := hinv.idBack k p hk
      rw [nclistget_push_lt (nclistget_lt this.1)]
      exact this
  · intro p hp
    rcases nclistget_push_ne hp with ⟨hlt, heq⟩ | ⟨hlen, heq⟩
    · simp only [heq] at hp ⊢; exact hinv.sizet p hp
    · simp only [heq]; exact hsz

theorem NC_listmap_del_eq {h : Heap} {lm : NC_listmap} {p : Nat} (hinv : Inv h lm)
    (hp : nclistget lm.list p ≠ 0) :
    NC_listmap_del h lm (nclistget lm.list p)
      = (1, { list := nclistset lm.list p 0,
              namemap := { count := lm.namemap.count - 1,
                           table := tableRemove (h (nclistget lm.list p)).name lm.namemap.table },
              idmap := { count := lm.idmap.count - 1,
                         table := tableRemove (idKey (h (nclistget lm.list p)).id)
                           lm.idmap.table } }) := by
  obtain ⟨h1, h2⟩ := hinv.i1 p hp
  simp [NC_listmap_del, hp, NC_hashmapremove_of_get h1, NC_hashmapremove_of_get h2]

theorem Inv_del {h : Heap} {lm : NC_listmap} {p : Nat} (hinv : Inv h lm)
    (hp : nclistget lm.list p ≠ 0) :
    Inv h (NC_listmap_del h lm (nclistget lm.list p)).2 := by
  obtain ⟨h1, h2⟩ := hinv.i1 p hp
  have r1 := NC_hashmapremove_of_get h1
  have r2 := NC_hashmapremove_of_get h2
  rw [NC_listmap_del_eq hinv hp]
  refine ⟨Unique_remove hinv.uname r1, Unique_remove hinv.uid r2, ?_, ?_, ?_, ?_⟩
  · intro q hq
    have hqp : q ≠ p := by
      intro e; subst e; exact hq (nclistget_set_same _ _)
    simp only [nclistget_set_other _ _ hqp] at hq ⊢
    obtain ⟨g1, g2⟩ := hinv.i1 q hq
    have n1 : (h (nclistget lm.list q)).name ≠ (h (nclistget lm.list p)).name := by
      intro e; rw [e, h1] at g1; exact hqp (Option.some.inj g1).symm
    have n2 : idKey (h (nclistget lm.list q)).id ≠ idKey (h (nclistget lm.list p)).id := by
      intro e; rw [e, h2] at g2; exact hqp (Option.some.inj g2).symm
    exact ⟨(NC_hashmapget_remove_other r1 n1).trans g1,
      (NC_hashmapget_remove_other r2 n2).trans g2⟩
  · intro k q hk
    have hkn : k ≠ (h (nclistget lm.list p)).name := by
      intro e; subst e
      rw [NC_hashmapget_remove_same hinv.uname r1] at hk; exact Option.noConfusion hk
    rw [NC_hashmapget_remove_other r1 hkn] at hk
    have hb := hinv.nameBack k q hk
    have hqp : q ≠ p := by
      intro e; subst e; exact hkn hb.2.symm
    simp only [nclistget_set_other _ _ hqp]
    exact hb
  · intro k q hk
    have hkn : k ≠ idKey (h (nclistget lm.list p)).id := by
      intro e; subst e
      rw [NC_hashmapget_remove_same hinv.uid r2] at hk; exact Option.noConfusion hk
    rw [NC_hashmapget_remove_other r2 hkn] at hk
    have hb := hinv.idBack k q hk
    have hqp : q ≠ p := by
      intro e; subst e; exact hkn hb.2.symm
    simp only [nclistget_set_other _ _ hqp]
    exact hb
  · intro q hq
    have hqp : q ≠ p := by
      intro e; subst e; exact hq (nclistget_set_same _ _)
    simp only [nclistget_set_other _ _ hqp] at hq ⊢
    exact hinv.sizet q hq

theorem DistinctObjs_cons {h : Heap} {obj : Ptr} {rest : List Ptr}
    (hd : DistinctObjs h (obj :: rest)) :
    obj ≠ 0 ∧ (h obj).id < 2 ^ 64 ∧ DistinctObjs h rest ∧
    (∀ q ∈ rest, (h q).name ≠ (h obj).name) ∧ (∀ q ∈ rest, (h q).id ≠ (h obj).id) := by
  obtain ⟨h1, h2, h3⟩ := hd
  simp only [List.map_cons, List.nodup_cons, List.mem_map, not_exists, not_and] at h2 h3
  refine ⟨(h1 obj (List.mem_cons_self _ _)).1, (h1 obj (List.mem_cons_self _ _)).2,
    ⟨fun q hq => h1 q (List.mem_cons_of_mem _ hq), h2.2, h3.2⟩, ?_, ?_⟩
  · intro q hq; exact h2.1 q hq
  · intro q hq; exact h3.1 q hq

theorem addAll_spec (hash : List Nat → Nat) (h : Heap) (objs : List Ptr) :
    ∀ lm : NC_listmap, Inv h lm → DistinctObjs h objs →
      (∀ obj ∈ objs, ∀ p, nclistget lm.list p ≠ 0 →
        (h (nclistget lm.list p)).name ≠ (h obj).name ∧
        (h (nclistget lm.list p)).id ≠ (h obj).id) →
      ∃ lm1, addAll hash h objs lm = some lm1 ∧ lm1.list = lm.list ++ objs ∧ Inv h lm1 := by
  induction objs with
  | nil => intro lm hinv _ _; exact ⟨lm, rfl, by simp, hinv⟩
  | cons obj rest ih =>
    intro lm hinv hd hfresh
    obtain ⟨hobj, hsz, hrest, hn, hi⟩ := DistinctObjs_cons hd
    have hadd := NC_listmap_add_eq hash h lm hobj
    obtain ⟨_, hlist, hinv1⟩ := Inv_add hash hinv hsz
      (fun p hp => (hfresh obj (List.mem_cons_self _ _) p hp).1)
      (fun p hp => (hfresh obj (List.mem_cons_self _ _) p hp).2) hadd
    have hfresh1 : ∀ o ∈ rest, ∀ p,
        nclistget (nclistpush lm.list obj) p ≠ 0 →
        (h (nclistget (nclistpush lm.list obj) p)).name ≠ (h o).name ∧
        (h (nclistget (nclistpush lm.list obj) p)).id ≠ (h o).id := by
      intro o ho p hp
      rcases nclistget_push_ne hp with ⟨_, heq⟩ | ⟨_, heq⟩
      · rw [heq] at hp ⊢; exact hfresh o (List.mem_cons_of_mem _ ho) p hp
      · rw [heq]; exact ⟨fun e => hn o ho e.symm, fun e => hi o ho e.symm⟩
    obtain ⟨lm2, h2, hl2, hinv2⟩ := ih _ hinv1 hrest hfresh1
    refine ⟨lm2, ?_, ?_, hinv2⟩
    · simp only [addAll, hadd, if_true]; exact h2
    · rw [hl2]; simp [nclistpush]

theorem rehashLoop_eq (hash : List Nat → Nat) (h : Heap) (contents : List Ptr) :
    ∀ lm : NC_listmap, rehashLoop hash h contents lm
      = (addAll hash h (liveEntries contents) lm).map (fun lm1 => (1, lm1)) := by
  induction contents with
  | nil => intro lm; rfl
  | cons tmp rest ih =>
    intro lm
    by_cases ht : tmp = 0
    · simp [rehashLoop, ht, liveEntries, ih]
    · have : liveEntries (tmp :: rest) = tmp :: liveEntries rest := by
        simp [liveEntries, ht]
      rw [this]
      simp only [rehashLoop, ht, if_false, addAll, NC_listmap_add_eq hash h lm ht, if_true]
      simp [ih]

theorem NC_listmap_rehash_eq (hash : List Nat → Nat) (h : Heap) (lm : NC_listmap) :
    NC_listmap_rehash hash h lm
      = (addAll hash h (liveEntries lm.list) (NC_listmap_init lm.list.length).2).map
          (fun lm1 => (1, lm1)) := by
  simp [NC_listmap_rehash, NC_listmap_clear, NC_listmap_init, nclistextract, nclistlength,
    rehashLoop_eq]

theorem liveEntries_mem {l : List Ptr} {obj : Ptr} : obj ∈ liveEntries l ↔ obj ∈ l ∧ obj ≠ 0 := by
  simp [liveEntries]

theorem Inv_get {h : Heap} {lm : NC_listmap} (hinv : Inv h lm) {obj : Ptr}
    (hmem : obj ∈ lm.list) (hobj : obj ≠ 0) :
    NC_listmap_get lm (h obj).name = obj ∧ NC_listmap_iget lm (h obj).id = obj := by
  obtain ⟨p, hp⟩ := nclistget_mem hmem
  have hp0 : nclistget lm.list p ≠ 0 := by rw [hp]; exact hobj
  obtain ⟨g1, g2⟩ := hinv.i1 p hp0
  rw [hp] at g1 g2
  simp [NC_listmap_get, NC_listmap_iget, g1, g2, hp]

theorem Inv_get_stale {h : Heap} {lm : NC_listmap} (hinv : Inv h lm) (n : List Nat)
    (hn : ∀ e ∈ liveEntries lm.list, (h e).name ≠ n) : NC_listmap_get lm n = 0 := by
  unfold NC_listmap_get
  cases hg : NC_hashmapget lm.namemap n with
  | none => rfl
  | some p =>
    exfalso
    obtain ⟨b1, b2⟩ := hinv.nameBack n p hg
    exact hn _ (liveEntries_mem.mpr ⟨nclistget_mem_of_ne b1, b1⟩) b2

theorem Inv_iget_stale {h : Heap} {lm : NC_listmap} (hinv : Inv h lm) (i : Nat)
    (hi : i < 2 ^ 64) (hn : ∀ e ∈ liveEntries lm.list, (h e).id ≠ i) :
    NC_listmap_iget lm i = 0 := by
  unfold NC_listmap_iget
  cases hg : NC_hashmapget lm.idmap (idKey i) with
  | none => rfl
  | some p =>
    exfalso
    obtain ⟨b1, b2⟩ := hinv.idBack (idKey i) p hg
    exact hn _ (liveEntries_mem.mpr ⟨nclistget_mem_of_ne b1, b1⟩)
      (idKey_inj (hinv.sizet p b1) hi b2)

theorem built_Inv {hash : List Nat → Nat} {h : Heap} {size0 : Nat} {objs : List Ptr}
    {lm : NC_listmap} (hd : DistinctObjs h objs)
    (hbuilt : addAll hash h objs (NC_listmap_init size0).2 = some lm) :
    lm.list = objs ∧ Inv h lm := by
  obtain ⟨lm1, h1, h2, h3⟩ := addAll_spec hash h objs _ (Inv_init h size0) hd
    (fun _ _ p hp => absurd (nclistget_ge (Nat.zero_le p)) hp)
  rw [h1] at hbuilt
  cases hbuilt
  exact ⟨by simpa [NC_listmap_init] using h2, h3⟩

theorem nclistget_of_getElem? {l : List Ptr} {p : Nat} {e : Ptr} (h : l[p]? = some e) :
    nclistget l p = e := by
  simp [nclistget, List.getD_eq_getElem?_getD, h]

/-- Scenario A is what `init(0)`, `add(1)`, `add(2)` build. -/
theorem scenarioA_built :
    addAll sampleHash scenarioHeap [1, 2] (NC_listmap_init 0).2 = some scenarioA := by
  decide

theorem addAll_total (hash : List Nat → Nat) (h : Heap) (objs : List Ptr) :
    ∀ lm : NC_listmap, (∀ obj ∈ objs, obj ≠ 0) →
      ∃ lm1, addAll hash h objs lm = some lm1 ∧ lm1.list = lm.list ++ objs := by
  induction objs with
  | nil => intro lm _; exact ⟨lm, rfl, by simp⟩
  | cons obj rest ih =>
    intro lm hnn
    have hobj := hnn obj (List.mem_cons_self _ _)
    obtain ⟨lm2, h2, hl2⟩ := ih
      { list := nclistpush lm.list obj,
        namemap := NC_hashmapadd hash lm.namemap lm.list.length (h obj).name,
        idmap := NC_hashmapadd hash lm.idmap lm.list.length (idKey (h obj).id) }
      (fun o ho => hnn o (List.mem_cons_of_mem _ ho))
    refine ⟨lm2, ?_, ?_⟩
    · simp only [addAll, NC_listmap_add_eq hash h lm hobj, if_true]; exact h2
    · rw [hl2]; simp [nclistpush]

theorem nclistget_cons_succ (a : Ptr) (t : List Ptr) (p : Nat) :
    nclistget (a :: t) (p + 1) = nclistget t p := by
  simp [nclistget, List.getD_eq_getElem?_getD]

theorem liveEntries_nodup (l : List Ptr) :
    (∀ p q, nclistget l p ≠ 0 → nclistget l p = nclistget l q → p = q) →
      (liveEntries l).Nodup := by
  induction l with
  | nil => intro _; simp [liveEntries]
  | cons a t ih =>
    intro hinj
    have ht : (liveEntries t).Nodup := by
      apply ih
      intro p q hp hpq
      have := hinj (p + 1) (q + 1) (by rw [nclistget_cons_succ]; exact hp)
        (by rw [nclistget_cons_succ, nclistget_cons_succ]; exact hpq)
      omega
    by_cases ha : a = 0
    · simpa [liveEntries, ha] using ht
    · have : liveEntries (a :: t) = a :: liveEntries t := by simp [liveEntries, ha]
      rw [this, List.nodup_cons]
      refine ⟨?_, ht⟩
      intro hmem
      obtain ⟨q, hq⟩ := nclistget_mem (liveEntries_mem.mp hmem).1
      have h0 : nclistget (a :: t) 0 = a := by simp [nclistget]
      have := hinj 0 (q + 1) (by rw [h0]; exact ha)
        (by rw [h0, nclistget_cons_succ, hq])
      omega

theorem Inv_distinct {h : Heap} {lm : NC_listmap} (hinv : Inv h lm) :
    DistinctObjs h (liveEntries lm.list) := by
  have hnd : (liveEntries lm.list).Nodup := by
    apply liveEntries_nodup
    intro p q hp hpq
    have hq : nclistget lm.list q ≠ 0 := by rw [← hpq]; exact hp
    have g1 := (hinv.i1 p hp).1
    have g2 := (hinv.i1 q hq).1
    rw [hpq, g2] at g1
    exact (Option.some.inj g1).symm
  refine ⟨?_, ?_, ?_⟩
  · intro obj hobj
    obtain ⟨hm, h0⟩ := liveEntries_mem.mp hobj
    obtain ⟨p, hp⟩ := nclistget_mem hm
    have := hinv.sizet p (by rw [hp]; exact h0)
    rw [hp] at this
    exact ⟨h0, this⟩
  · apply List.Nodup.map_on _ hnd
    intro a ha b hb hab
    obtain ⟨hma, ha0⟩ := liveEntries_mem.mp ha
    obtain ⟨hmb, hb0⟩ := liveEntries_mem.mp hb
    obtain ⟨p, hp⟩ := nclistget_mem hma
    obtain ⟨q, hq⟩ := nclistget_mem hmb
    have g1 := (hinv.i1 p (by rw [hp]; exact ha0)).1
    have g2 := (hinv.i1 q (by rw [hq]; exact hb0)).1
    rw [hp] at g1; rw [hq] at g2
    rw [hab, g2] at g1
    have hpq : q = p := Option.some.inj g1
    rw [← hp, ← hq, hpq]
  · apply List.Nodup.map_on _ hnd
    intro a ha b hb hab
    obtain ⟨hma, ha0⟩ := liveEntries_mem.mp ha
    obtain ⟨hmb, hb0⟩ := liveEntries_mem.mp hb
    obtain ⟨p, hp⟩ := nclistget_mem hma
    obtain ⟨q, hq⟩ := nclistget_mem hmb
    have g1 := (hinv.i1 p (by rw [hp]; exact ha0)).2
    have g2 := (hinv.i1 q (by rw [hq]; exact hb0)).2
    rw [hp] at g1; rw [hq] at g2
    rw [hab, g2] at g1
    have hpq : q = p := Option.some.inj g1
    rw [← hp, ← hq, hpq]

theorem Inv_rehash {hash : List Nat → Nat} {h : Heap} {lm lm1 : NC_listmap} {r : Nat}
    (hinv : Inv h lm) (hre : NC_listmap_rehash hash h lm = some (r, lm1)) : Inv h lm1 := by
  obtain ⟨lm2, h1, _, h3⟩ := addAll_spec hash h (liveEntries lm.list)
    (NC_listmap_init lm.list.length).2 (Inv_init h _) (Inv_distinct hinv)
    (fun _ _ p hp => absurd (nclistget_ge (Nat.zero_le p)) hp)
  rw [NC_listmap_rehash_eq, h1] at hre
  simp only [Option.map_some', Option.some.injEq, Prod.mk.injEq] at hre
  rw [← hre.2]; exact h3

theorem Reachable_Inv {hash : List Nat → Nat} {h : Heap} {lm : NC_listmap}
    (hr : Reachable hash h lm) : Inv h lm := by
  induction hr with
  | init size0 => exact Inv_init h size0
  | add _ hsz hn hi hadd ih =>
    exact (Inv_add hash ih hsz
      (fun p hp => hn _ (nclistget_mem_of_ne hp) hp)
      (fun p hp => hi _ (nclistget_mem_of_ne hp) hp) hadd).2.2
  | del _ hmem h0 ih =>
    obtain ⟨p, hp⟩ := nclistget_mem hmem
    have := Inv_del ih (by rw [hp]; exact h0 : nclistget _ p ≠ 0)
    rw [hp] at this; exact this
  | idel _ hp ih =>
    have := Inv_del ih hp
    simpa [NC_listmap_idel, hp] using this
  | rehash _ hre ih => exact Inv_rehash ih hre

theorem Reachable_addAll (hash : List Nat → Nat) (h : Heap) (objs : List Ptr) :
    ∀ lm lm1 : NC_listmap, Reachable hash h lm → DistinctObjs h objs →
      (∀ obj ∈ objs, ∀ e ∈ lm.list, e ≠ 0 →
        (h e).name ≠ (h obj).name ∧ (h e).id ≠ (h obj).id) →
      addAll hash h objs lm = some lm1 → Reachable hash h lm1 := by
  induction objs with
  | nil => intro lm lm1 hr _ _ hadd; simp [addAll] at hadd; subst hadd; exact hr
  | cons obj rest ih =>
    intro lm lm1 hr hd hfresh hadd
    obtain ⟨hobj, hsz, hrest, hn, hi⟩ := DistinctObjs_cons hd
    have hadd1 := NC_listmap_add_eq hash h lm hobj
    simp only [addAll, hadd1, if_true] at hadd
    refine ih _ lm1 (Reachable.add hr hsz
      (fun e he h0 => (hfresh obj (List.mem_cons_self _ _) e he h0).1)
      (fun e he h0 => (hfresh obj (List.mem_cons_self _ _) e he h0).2) hadd1) hrest ?_ hadd
    intro o ho e he h0
    simp only [nclistpush, List.mem_append, List.mem_singleton] at he
    rcases he with he | he
    · exact hfresh o (List.mem_cons_of_mem _ ho) e he h0
    · subst he; exact ⟨fun e => hn o ho e.symm, fun e => hi o ho e.symm⟩

/-- Scenario B is reachable: scenario A followed by `del` of object 1. -/
theorem scenarioB_reachable : Reachable sampleHash scenarioHeap scenarioB := by
  have hA : Reachable sampleHash scenarioHeap scenarioA :=
    Reachable_addAll sampleHash scenarioHeap [1, 2] _ _ (Reachable.init 0) (by decide)
      (by intro _ _ e he; simp [NC_listmap_init] at he) scenarioA_built
  have hB := Reachable.del hA (by decide : (1 : Ptr) ∈ scenarioA.list) (by decide)
  have : (NC_listmap_del scenarioHeap scenarioA 1).2 = scenarioB := by decide
  rw [this] at hB; exact hB

theorem SlotWF_emptySlot (hash : List Nat → Nat) : SlotWF hash emptySlot := Or.inl rfl

theorem tableOverwrite_SlotWF (hash : List Nat → Nat) (k : List Nat) (d : Nat)
    (t : List NC_hentry) (ht : ∀ e ∈ t, SlotWF hash e) :
    ∀ e ∈ tableOverwrite k d t, SlotWF hash e := by
  induction t with
  | nil => intro e he; simp [tableOverwrite] at he
  | cons a es ih =>
    have ha := ht a (List.mem_cons_self _ _)
    have hes : ∀ e ∈ es, SlotWF hash e := fun e he => ht e (List.mem_cons_of_mem _ he)
    intro e he
    by_cases h : slotHolds k a = true
    · simp only [tableOverwrite, h, if_true, List.mem_cons] at he
      rcases he with he | he
      · subst he; exact ha
      · exact hes e he
    · simp only [Bool.not_eq_true] at h
      simp only [tableOverwrite, h, Bool.false_eq_true, if_false, List.mem_cons] at he
      rcases he with he | he
      · subst he; exact ha
      · exact ih hes e he

theorem tableInsert_SlotWF (hash : List Nat → Nat) (s : NC_hentry) (hs : SlotWF hash s)
    (t : List NC_hentry) (ht : ∀ e ∈ t, SlotWF hash e) :
    ∀ e ∈ tableInsert s t, SlotWF hash e := by
  induction t with
  | nil => intro e he; simp [tableInsert] at he; subst he; exact hs
  | cons a es ih =>
    have ha := ht a (List.mem_cons_self _ _)
    have hes : ∀ e ∈ es, SlotWF hash e := fun e he => ht e (List.mem_cons_of_mem _ he)
    intro e he
    by_cases hf : a.flags % 2 = 0
    · simp only [tableInsert, Nat.and_one_is_mod, hf, beq_self_eq_true, if_true,
        List.mem_cons] at he
      rcases he with he | he
      · subst he; exact hs
      · exact hes e he
    · simp only [tableInsert, Nat.and_one_is_mod, beq_iff_eq, hf, if_false, List.mem_cons] at he
      rcases he with he | he
      · subst he; exact ha
      · exact ih hes e he

theorem tableRemove_SlotWF (hash : List Nat → Nat) (k : List Nat)
    (t : List NC_hentry) (ht : ∀ e ∈ t, SlotWF hash e) :
    ∀ e ∈ tableRemove k t, SlotWF hash e := by
  induction t with
  | nil => intro e he; simp [tableRemove] at he
  | cons a es ih =>
    have ha := ht a (List.mem_cons_self _ _)
    have hes : ∀ e ∈ es, SlotWF hash e := fun e he => ht e (List.mem_cons_of_mem _ he)
    intro e he
    by_cases h : slotHolds k a = true
    · simp only [tableRemove, h, if_true, List.mem_cons] at he
      rcases he with he | he
      · subst he; exact SlotWF_emptySlot hash
      · exact hes e he
    · simp only [Bool.not_eq_true] at h
      simp only [tableRemove, h, Bool.false_eq_true, if_false, List.mem_cons] at he
      rcases he with he | he
      · subst he; exact ha
      · exact ih hes e he

theorem WF_new (hash : List Nat → Nat) (n : Nat) : (NC_hashmapnew n).WF hash := by
  refine ⟨?_, Unique_new n, ?_⟩
  · intro e he
    simp only [NC_hashmapnew, List.mem_replicate] at he
    rw [he.2]; exact SlotWF_emptySlot hash
  · simp [NC_hashmapnew, heldKeys_replicate]

theorem WF_add (hash : List Nat → Nat) (hm : NC_hashmap) (d : Nat) (k : List Nat)
    (hw : hm.WF hash) : (NC_hashmapadd hash hm d k).WF hash := by
  refine ⟨?_, Unique_add hash hm d k hw.2.1, ?_⟩
  · unfold NC_hashmapadd
    cases hf : hm.table.find? (slotHolds k) with
    | none =>
      simp only [Option.isSome_none, Bool.false_eq_true, if_false]
      exact tableInsert_SlotWF hash _ (Or.inr ⟨rfl, rfl, rfl⟩) _ hw.1
    | some e =>
      simp only [Option.isSome_some, if_true]
      exact tableOverwrite_SlotWF hash k d _ hw.1
  · unfold NC_hashmapadd
    cases hf : hm.table.find? (slotHolds k) with
    | none =>
      simp only [Option.isSome_none, Bool.false_eq_true, if_false]
      rw [(heldKeys_tableInsert hash d k hm.table).length_eq, hw.2.2]; simp
    | some e =>
      simp only [Option.isSome_some, if_true]
      rw [heldKeys_tableOverwrite]; exact hw.2.2

theorem WF_remove {hash : List Nat → Nat} {hm hm1 : NC_hashmap} {k : List Nat} {d : Nat}
    (hw : hm.WF hash) (h : NC_hashmapremove hm k = some (d, hm1)) : hm1.WF hash := by
  obtain ⟨hg, ht, hc⟩ := NC_hashmapremove_some h
  refine ⟨?_, Unique_remove hw.2.1 h, ?_⟩
  · rw [ht]; exact tableRemove_SlotWF hash k _ hw.1
  · have hmem : k ∈ heldKeys hm.table := by
      by_contra hn
      have := (find_none_iff k hm.table).mpr hn
      simp [NC_hashmapget, this] at hg
    rw [hc, ht, heldKeys_tableRemove, List.length_erase_of_mem hmem, hw.2.2]

theorem addAll_WF (hash : List Nat → Nat) (h : Heap) (objs : List Ptr) :
    ∀ lm lm1 : NC_listmap, lm.namemap.WF hash → lm.idmap.WF hash →
      addAll hash h objs lm = some lm1 → lm1.namemap.WF hash ∧ lm1.idmap.WF hash := by
  induction objs with
  | nil => intro lm lm1 h1 h2 hl; simp [addAll] at hl; subst hl; exact ⟨h1, h2⟩
  | cons obj rest ih =>
    intro lm lm1 h1 h2 hl
    by_cases hobj : obj = 0
    · simp [addAll, NC_listmap_add, hobj] at hl
    · simp only [addAll, NC_listmap_add_eq hash h lm hobj, if_true] at hl
      exact ih _ _ (WF_add hash _ _ _ h1) (WF_add hash _ _ _ h2) hl

theorem touch_flags_mod (c : Nat) (e : NC_hentry) : (touch c e).flags % 2 = e.flags % 2 := by
  unfold touch
  split
  · simp only []; omega
  · rfl

theorem touch_hashkey (c : Nat) (e : NC_hentry) : (touch c e).hashkey = e.hashkey := by
  unfold touch
  split <;> rfl

theorem touch_other {c : Nat} {e : NC_hentry} (h : e.hashkey ≠ c) : touch c e = e := by
  simp [touch, h]

theorem touch_free {c : Nat} {e : NC_hentry} (h : e.flags % 2 = 0) : touch c e = e := by
  simp [touch, h]

theorem markSlots_spec (hash : List Nat → Nat) (h : Heap) {xp : Ptr} (hxp : xp ≠ 0)
    (t : List NC_hentry) :
    ∀ m n, ∃ m1 n1,
      markSlots hash h xp t m n = some (t.map (touch (hash (h xp).name)), m1, n1) ∧
      n ≤ n1 ∧
      ((∀ e ∈ t, e.flags % 2 = 1 → e.hashkey ≠ hash (h xp).name) → m1 = m) ∧
      (∀ s ∈ t, s.flags % 2 = 1 → s.hashkey = hash (h xp).name → s.flags &&& 128 = 128 →
        n < n1) := by
  induction t with
  | nil => intro m n; exact ⟨m, n, rfl, le_refl _, fun _ => rfl, by simp⟩
  | cons e es ih =>
    intro m n
    by_cases hf : e.flags % 2 = 0
    · obtain ⟨m1, n1, h1, h2, h3, h4⟩ := ih m n
      refine ⟨m1, n1, ?_, h2, ?_, ?_⟩
      · simp [markSlots, Nat.and_one_is_mod, hf, h1, touch_free hf]
      · intro hall; exact h3 (fun e he => hall e (List.mem_cons_of_mem _ he))
      · intro s hs hact hk hb
        rcases List.mem_cons.mp hs with e1 | e1
        · subst e1; omega
        · exact h4 s e1 hact hk hb
    · have hact : e.flags % 2 = 1 := by omega
      by_cases hk : e.hashkey = hash (h xp).name
      · obtain ⟨m1, n1, h1, h2, _, h4⟩ :=
          ih 1 (if e.flags &&& 128 = 128 then n + 1 else n)
        have hle : n ≤ (if e.flags &&& 128 = 128 then n + 1 else n) := by
          split <;> omega
        refine ⟨m1, n1, ?_, le_trans hle h2, ?_, ?_⟩
        · simp [markSlots, Nat.and_one_is_mod, hf, hxp, hk, h1, touch, hact]
        · intro hall
          exact absurd hk (hall e (List.mem_cons_self _ _) hact)
        · intro s hs hacts hks hb
          rcases List.mem_cons.mp hs with e1 | e1
          · subst e1
            simp only [hb, if_true] at h2
            omega
          · exact lt_of_le_of_lt hle (h4 s e1 hacts hks hb)
      · obtain ⟨m1, n1, h1, h2, h3, h4⟩ := ih m n
        refine ⟨m1, n1, ?_, h2, ?_, ?_⟩
        · simp [markSlots, Nat.and_one_is_mod, hf, hxp, hk, h1, touch_other hk]
        · intro hall; exact h3 (fun e he => hall e (List.mem_cons_of_mem _ he))
        · intro s hs hacts hks hb
          rcases List.mem_cons.mp hs with e1 | e1
          · subst e1; exact absurd hks hk
          · exact h4 s e1 hacts hks hb

theorem walk_cons (hash : List Nat → Nat) (h : Heap) {x0 : Ptr} (hx0 : x0 ≠ 0)
    (rest : List Ptr) (t : List NC_hentry) (n : Nat) :
    ∃ n1, walkVector hash h (x0 :: rest) t n
        = walkVector hash h rest (t.map (touch (hash (h x0).name))) n1 ∧
      n ≤ n1 ∧
      ((∀ e ∈ t, e.flags % 2 = 1 → e.hashkey ≠ hash (h x0).name) → n < n1) ∧
      (∀ s ∈ t, s.flags % 2 = 1 → s.hashkey = hash (h x0).name → s.flags &&& 128 = 128 →
        n < n1) := by
  obtain ⟨m1, n1, h1, h2, h3, h4⟩ := markSlots_spec hash h hx0 t 0 n
  refine ⟨if m1 = 0 then n1 + 1 else n1, ?_, ?_, ?_, ?_⟩
  · simp [walkVector, h1]
  · split <;> omega
  · intro hall
    rw [h3 hall]; simp; omega
  · intro s hs hact hk hb
    have := h4 s hs hact hk hb
    split <;> omega

theorem walk_total (hash : List Nat → Nat) (h : Heap) (l : List Ptr) :
    ∀ t n, 0 ∉ l → ∃ t1 n1, walkVector hash h l t n = some (t1, n1) ∧ n ≤ n1 := by
  induction l with
  | nil => intro t n _; exact ⟨t, n, rfl, le_refl _⟩
  | cons x0 rest ih =>
    intro t n h0
    have hx0 : x0 ≠ 0 := fun e => h0 (by simp [e])
    have hrest : 0 ∉ rest := fun e => h0 (List.mem_cons_of_mem _ e)
    obtain ⟨n1, hw, hle, _, _⟩ := walk_cons hash h hx0 rest t n
    obtain ⟨t2, n2, h2, hle2⟩ := ih (t.map (touch (hash (h x0).name))) n1 hrest
    exact ⟨t2, n2, by rw [hw, h2], le_trans hle hle2⟩

theorem walk_unmatched (hash : List Nat → Nat) (h : Heap) (x : Ptr) (l : List Ptr) :
    ∀ t n t1 n1, 0 ∉ l → x ∈ l →
      (∀ e ∈ t, e.flags % 2 = 1 → e.hashkey ≠ hash (h x).name) →
      walkVector hash h l t n = some (t1, n1) → n < n1 := by
  induction l with
  | nil => intro t n t1 n1 _ hx; simp at hx
  | cons x0 rest ih =>
    intro t n t1 n1 h0 hx hall hw
    have hx0 : x0 ≠ 0 := fun e => h0 (by simp [e])
    have hrest : 0 ∉ rest := fun e => h0 (List.mem_cons_of_mem _ e)
    obtain ⟨n2, hw2, hle, hA, _⟩ := walk_cons hash h hx0 rest t n
    rw [hw2] at hw
    rcases List.mem_cons.mp hx with e | e
    · subst e
      obtain ⟨t3, n3, h3, hle3⟩ := walk_total hash h rest (t.map (touch (hash (h x).name))) n2 hrest
      rw [h3] at hw; cases hw
      exact lt_of_lt_of_le (hA hall) hle3
    · have hall2 : ∀ e ∈ t.map (touch (hash (h x0).name)), e.flags % 2 = 1 →
          e.hashkey ≠ hash (h x).name := by
        intro e1 he1
        obtain ⟨e0, he0, rfl⟩ := List.mem_map.mp he1
        rw [touch_flags_mod, touch_hashkey]
        exact hall e0 he0
      exact lt_of_le_of_lt hle (ih _ _ _ _ hrest e hall2 hw)

theorem walk_touched (hash : List Nat → Nat) (h : Heap) (x : Ptr) (s : NC_hentry)
    (hs129 : s.flags = 129) (hxs : hash (h x).name = s.hashkey) (l : List Ptr) :
    ∀ t n t1 n1, 0 ∉ l → x ∈ l → s ∈ t →
      walkVector hash h l t n = some (t1, n1) → n < n1 := by
  induction l with
  | nil => intro t n t1 n1 _ hx; simp at hx
  | cons x0 rest ih =>
    intro t n t1 n1 h0 hx hs hw
    have hx0 : x0 ≠ 0 := fun e => h0 (by simp [e])
    have hrest : 0 ∉ rest := fun e => h0 (List.mem_cons_of_mem _ e)
    obtain ⟨n2, hw2, hle, _, hB⟩ := walk_cons hash h hx0 rest t n
    rw [hw2] at hw
    by_cases hk : s.hashkey = hash (h x0).name
    · obtain ⟨t3, n3, h3, hle3⟩ :=
        walk_total hash h rest (t.map (touch (hash (h x0).name))) n2 hrest
      rw [h3] at hw; cases hw
      have := hB s hs (by rw [hs129]) hk (by rw [hs129]; decide)
      omega
    · have hxne : x ≠ x0 := by
        intro e; subst e; exact hk hxs.symm
      have hxr : x ∈ rest := by
        rcases List.mem_cons.mp hx with e | e
        · exact absurd e hxne
        · exact e
      have hs2 : s ∈ t.map (touch (hash (h x0).name)) :=
        List.mem_map.mpr ⟨s, hs, touch_other hk⟩
      exact lt_of_le_of_lt hle (ih _ _ _ _ hrest hxr hs2 hw)

theorem walk_twice (hash : List Nat → Nat) (h : Heap) (x y : Ptr) (s : NC_hentry)
    (hs1 : s.flags = 1) (hxs : hash (h x).name = s.hashkey) (hys : hash (h y).name = s.hashkey)
    (hxy : x ≠ y) (l : List Ptr) :
    ∀ t n t1 n1, 0 ∉ l → x ∈ l → y ∈ l → s ∈ t →
      walkVector hash h l t n = some (t1, n1) → n < n1 := by
  induction l with
  | nil => intro t n t1 n1 _ hx; simp at hx
  | cons x0 rest ih =>
    intro t n t1 n1 h0 hx hy hs hw
    have hx0 : x0 ≠ 0 := fun e => h0 (by simp [e])
    have hrest : 0 ∉ rest := fun e => h0 (List.mem_cons_of_mem _ e)
    obtain ⟨n2, hw2, hle, _, _⟩ := walk_cons hash h hx0 rest t n
    rw [hw2] at hw
    by_cases hk : s.hashkey = hash (h x0).name
    · have hs2 : ({ s with flags := 129 } : NC_hentry) ∈ t.map (touch (hash (h x0).name)) := by
        refine List.mem_map.mpr ⟨s, hs, ?_⟩
        simp [touch, hs1, hk]
      by_cases hxx : x = x0
      · have hyr : y ∈ rest := by
          rcases List.mem_cons.mp hy with e | e
          · exact absurd (hxx.trans e.symm) hxy
          · exact e
        exact lt_of_le_of_lt hle
          (walk_touched hash h y { s with flags := 129 } rfl hys rest _ _ _ _ hrest hyr hs2 hw)
      · have hxr : x ∈ rest := by
          rcases List.mem_cons.mp hx with e | e
          · exact absurd e hxx
          · exact e
        exact lt_of_le_of_lt hle
          (walk_touched hash h x { s with flags := 129 } rfl hxs rest _ _ _ _ hrest hxr hs2 hw)
    · have hxr : x ∈ rest := by
        rcases List.mem_cons.mp hx with e | e
        · subst e; exact absurd hxs.symm hk
        · exact e
      have hyr : y ∈ rest := by
        rcases List.mem_cons.mp hy with e | e
        · subst e; exact absurd hys.symm hk
        · exact e
      have hs2 : s ∈ t.map (touch (hash (h x0).name)) :=
        List.mem_map.mpr ⟨s, hs, touch_other hk⟩
      exact lt_of_le_of_lt hle (ih _ _ _ _ hrest hxr hyr hs2 hw)

theorem countUnmarked_le (t : List NC_hentry) : ∀ n, n ≤ countUnmarked t n := by
  induction t with
  | nil => intro n; exact le_refl _
  | cons e es ih =>
    intro n
    unfold countUnmarked
    split
    · exact ih n
    · split
      · exact ih n
      · exact le_trans (Nat.le_succ n) (ih (n + 1))

theorem verifyMapToVector_le (h : Heap) (l : List Ptr) (t : List NC_hentry) :
    ∀ n, n ≤ verifyMapToVector h l t n := by
  induction t with
  | nil => intro n; exact le_refl _
  | cons e es ih =>
    intro n
    unfold verifyMapToVector
    split
    · exact ih n
    · simp only []
      split
      · exact le_trans (Nat.le_succ n) (ih (n + 1))
      · split
        · exact ih n
        · exact le_trans (Nat.le_succ n) (ih (n + 1))

theorem verifyMapToVector_lt (h : Heap) (l : List Ptr) (s : NC_hentry)
    (hact : s.flags % 2 = 1) (hobj : nclistget l s.data ≠ 0)
    (hbad : memcmpName (h (nclistget l s.data)).name s.key s.keysize = false)
    (t : List NC_hentry) :
    ∀ n, s ∈ t → n < verifyMapToVector h l t n := by
  induction t with
  | nil => intro n hs; simp at hs
  | cons e es ih =>
    intro n hs
    rcases List.mem_cons.mp hs with e1 | e1
    · subst e1
      have hf : ¬ s.flags % 2 = 0 := by omega
      simp only [verifyMapToVector, Nat.and_one_is_mod, hf, if_false, hobj, hbad,
        Bool.false_eq_true]
      exact lt_of_lt_of_le (Nat.lt_succ_self n) (verifyMapToVector_le h l es (n + 1))
    · unfold verifyMapToVector
      split
      · exact ih n e1
      · simp only []
        split
        · exact Nat.lt_of_succ_lt (ih (n + 1) e1)
        · split
          · exact ih n e1
          · exact Nat.lt_of_succ_lt (ih (n + 1) e1)

theorem memcmpName_not_prefix {new old : List Nat} (hz : 0 ∉ old) (hp : ¬ old <+: new) :
    memcmpName new old old.length = false := by
  cases hm : memcmpName new old old.length with
  | false => rfl
  | true =>
    exfalso
    simp only [memcmpName, List.take_length, beq_iff_eq] at hm
    have hpre : old <+: new ++ [0] := by
      rw [← hm]; exact List.take_prefix _ _
    rcases List.prefix_concat_iff.mp hpre with e | e
    · apply hz; rw [e]; simp
    · exact hp e

theorem setName_name_self (h : Heap) (e : Ptr) (new : List Nat) :
    (setName h e new e).name = new := by
  simp [setName]

theorem setName_other (h : Heap) {e y : Ptr} (new : List Nat) (hne : y ≠ e) :
    setName h e new y = h y := by
  simp [setName, hne]

theorem WF_active {hash : List Nat → Nat} {s : NC_hentry} (hw : SlotWF hash s)
    (hact : s.flags % 2 = 1) :
    s.flags = 1 ∧ s.keysize = s.key.length ∧ s.hashkey = hash s.key := by
  rcases hw with h0 | h1
  · rw [h0] at hact; omega
  · exact h1

theorem find_of_holds {t : List NC_hentry} {s : NC_hentry} (hs : s ∈ t)
    (hact : s.flags % 2 = 1) (hsz : s.keysize = s.key.length) :
    ∃ s1, t.find? (slotHolds s.key) = some s1 := by
  have hh : slotHolds s.key s = true := by
    simp [slotHolds, Nat.and_one_is_mod, hact, hsz]
  cases hf : t.find? (slotHolds s.key) with
  | some s1 => exact ⟨s1, rfl⟩
  | none =>
    rw [List.find?_eq_none] at hf
    exact absurd hh (hf s hs)

theorem WF_init (hash : List Nat → Nat) (size0 : Nat) :
    (NC_listmap_init size0).2.namemap.WF hash ∧ (NC_listmap_init size0).2.idmap.WF hash :=
  ⟨WF_new hash _, WF_new hash _⟩

theorem Reachable_WF {hash : List Nat → Nat} {h : Heap} {lm : NC_listmap}
    (hr : Reachable hash h lm) : lm.namemap.WF hash ∧ lm.idmap.WF hash := by
  induction hr with
  | init size0 => exact WF_init hash size0
  | @add lm0 lm1 obj hr0 _ _ _ hadd ih =>
    have hobj : obj ≠ 0 := by
      intro h0; simp [NC_listmap_add, h0] at hadd
    rw [NC_listmap_add_eq hash h lm0 hobj] at hadd
    simp only [Option.some.injEq, Prod.mk.injEq, true_and] at hadd
    subst hadd
    exact ⟨WF_add hash _ _ _ ih.1, WF_add hash _ _ _ ih.2⟩
  | @del lm0 target hr0 hmem h0 ih =>
    have hinv := Reachable_Inv hr0
    obtain ⟨p, hp⟩ := nclistget_mem hmem
    have hp0 : nclistget lm0.list p ≠ 0 := by rw [hp]; exact h0
    obtain ⟨g1, g2⟩ := hinv.i1 p hp0
    have hdel := NC_listmap_del_eq hinv hp0
    rw [hp] at hdel g1 g2
    rw [hdel]
    exact ⟨WF_remove ih.1 (NC_hashmapremove_of_get g1),
      WF_remove ih.2 (NC_hashmapremove_of_get g2)⟩
  | @idel lm0 index hr0 hp0 ih =>
    have hinv := Reachable_Inv hr0
    obtain ⟨g1, g2⟩ := hinv.i1 index hp0
    have hdel := NC_listmap_del_eq hinv hp0
    simp only [NC_listmap_idel, hp0, if_false]
    rw [hdel]
    exact ⟨WF_remove ih.1 (NC_hashmapremove_of_get g1),
      WF_remove ih.2 (NC_hashmapremove_of_get g2)⟩
  | @rehash lm0 lm1 hr0 hre _ =>
    rw [NC_listmap_rehash_eq] at hre
    cases hadd : addAll hash h (liveEntries lm0.list) (NC_listmap_init lm0.list.length).2 with
    | none => rw [hadd] at hre; exact Option.noConfusion hre
    | some lm2 =>
      rw [hadd] at hre
      simp only [Option.map_some', Option.some.injEq, Prod.mk.injEq, true_and] at hre
      subst hre
      exact addAll_WF hash h _ _ _ (WF_new hash _) (WF_new hash _) hadd

theorem markSlots_null (hash : List Nat → Nat) (h : Heap) (t : List NC_hentry) :
    ∀ m n, (∃ s ∈ t, s.flags % 2 = 1) → markSlots hash h 0 t m n = none := by
  induction t with
  | nil => intro m n hs; obtain ⟨s, hs, _⟩ := hs; simp at hs
  | cons e es ih =>
    intro m n hs
    by_cases hf : e.flags % 2 = 0
    · obtain ⟨s, hmem, hact⟩ := hs
      have hs' : ∃ s ∈ es, s.flags % 2 = 1 := by
        rcases List.mem_cons.mp hmem with e1 | e1
        · subst e1; omega
        · exact ⟨s, e1, hact⟩
      simp [markSlots, Nat.and_one_is_mod, hf, ih m n hs']
    · simp [markSlots, Nat.and_one_is_mod, hf]

theorem walk_null (hash : List Nat → Nat) (h : Heap) (l : List Ptr) :
    ∀ t n, 0 ∈ l → (∃ s ∈ t, s.flags % 2 = 1) → walkVector hash h l t n = none := by
  induction l with
  | nil => intro t n h0; simp at h0
  | cons x0 rest ih =>
    intro t n h0 hs
    by_cases hx0 : x0 = 0
    · subst hx0
      simp [walkVector, markSlots_null hash h t 0 n hs]
    · obtain ⟨n1, hw, _, _, _⟩ := walk_cons hash h hx0 rest t n
      rw [hw]
      apply ih
      · rcases List.mem_cons.mp h0 with e | e
        · exact absurd e.symm hx0
        · exact e
      · obtain ⟨s, hmem, hact⟩ := hs
        exact ⟨touch (hash (h x0).name) s, List.mem_map.mpr ⟨s, hmem, rfl⟩,
          by rw [touch_flags_mod]; exact hact⟩

theorem memcmpName_self (k : List Nat) : memcmpName k k k.length = true := by
  simp [memcmpName]

theorem find_unique {t : List NC_hentry} (hu : (heldKeys t).Nodup) {s : NC_hentry}
    (hs : s ∈ t) (hh : slotHolds s.key s = true) : t.find? (slotHolds s.key) = some s := by
  induction t with
  | nil => simp at hs
  | cons e es ih =>
    rw [heldKeys_cons] at hu
    by_cases he : slotHolds s.key e = true
    · have hek : e.key = s.key := (slotHolds_key he).2.2
      have hee : slotHolds e.key e = true := slotHolds_self he
      rcases List.mem_cons.mp hs with e1 | e1
      · subst e1; simp [List.find?_cons, he]
      · exfalso
        simp only [hee, if_true, List.nodup_cons] at hu
        apply hu.1
        rw [hek]
        by_contra hn
        have := (find_none_iff s.key es).mpr hn
        rw [List.find?_eq_none] at this
        exact absurd hh (this s e1)
    · have hse : s ≠ e := by
        intro e1; subst e1; exact he hh
      have hs' : s ∈ es := by
        rcases List.mem_cons.mp hs with e1 | e1
        · exact absurd e1 hse
        · exact e1
      have hu' : (heldKeys es).Nodup := by
        by_cases hee : slotHolds e.key e = true
        · simp only [hee, if_true, List.nodup_cons] at hu; exact hu.2
        · simpa [hee] using hu
      simp only [Bool.not_eq_true] at he
      simp [List.find?_cons, he, ih hu' hs']

theorem verifyMapToVector_clean (h : Heap) (l : List Ptr) (t : List NC_hentry)
    (hgood : ∀ s ∈ t, s.flags % 2 = 1 → nclistget l s.data ≠ 0 ∧
      memcmpName (h (nclistget l s.data)).name s.key s.keysize = true) :
    ∀ n, verifyMapToVector h l t n = n := by
  induction t with
  | nil => intro n; rfl
  | cons e es ih =>
    intro n
    have ih' := ih (fun s hs => hgood s (List.mem_cons_of_mem _ hs))
    by_cases hf : e.flags % 2 = 0
    · simp [verifyMapToVector, Nat.and_one_is_mod, hf, ih']
    · obtain ⟨g1, g2⟩ := hgood e (List.mem_cons_self _ _) (by omega)
      simp [verifyMapToVector, Nat.and_one_is_mod, hf, g1, g2, ih']

theorem markSlots_clean (hash : List Nat → Nat) (h : Heap) {xp : Ptr} (hxp : xp ≠ 0)
    (t : List NC_hentry)
    (hclear : ∀ s ∈ t, s.flags % 2 = 1 → s.hashkey = hash (h xp).name →
      s.flags &&& 128 ≠ 128) :
    ∀ m n, ∃ m1,
      markSlots hash h xp t m n = some (t.map (touch (hash (h xp).name)), m1, n) ∧
      ((∃ s ∈ t, s.flags % 2 = 1 ∧ s.hashkey = hash (h xp).name) → m1 = 1) ∧
      ((¬ ∃ s ∈ t, s.flags % 2 = 1 ∧ s.hashkey = hash (h xp).name) → m1 = m) := by
  induction t with
  | nil => intro m n; exact ⟨m, rfl, by simp, fun _ => rfl⟩
  | cons e es ih =>
    intro m n
    have ih' := ih (fun s hs => hclear s (List.mem_cons_of_mem _ hs))
    by_cases hf : e.flags % 2 = 0
    · obtain ⟨m1, h1, h2, h3⟩ := ih' m n
      refine ⟨m1, ?_, ?_, ?_⟩
      · simp [markSlots, Nat.and_one_is_mod, hf, h1, touch_free hf]
      · rintro ⟨s, hs, hact, hk⟩
        rcases List.mem_cons.mp hs with e1 | e1
        · subst e1; omega
        · exact h2 ⟨s, e1, hact, hk⟩
      · intro hno
        exact h3 (fun ⟨s, hs, hx⟩ => hno ⟨s, List.mem_cons_of_mem _ hs, hx⟩)
    · have hact : e.flags % 2 = 1 := by omega
      by_cases hk : e.hashkey = hash (h xp).name
      · have hb := hclear e (List.mem_cons_self _ _) hact hk
        obtain ⟨m1, h1, h2, h3⟩ := ih' 1 n
        have hm1 : m1 = 1 := by
          by_cases hex : ∃ s ∈ es, s.flags % 2 = 1 ∧ s.hashkey = hash (h xp).name
          · exact h2 hex
          · exact h3 hex
        refine ⟨m1, ?_, fun _ => hm1, ?_⟩
        · simp [markSlots, Nat.and_one_is_mod, hf, hxp, hk, hb, h1, touch, hact]
        · intro hno
          exact absurd ⟨e, List.mem_cons_self _ _, hact, hk⟩ hno
      · obtain ⟨m1, h1, h2, h3⟩ := ih' m n
        refine ⟨m1, ?_, ?_, ?_⟩
        · simp [markSlots, Nat.and_one_is_mod, hf, hxp, hk, h1, touch_other hk]
        · rintro ⟨s, hs, hacts, hks⟩
          rcases List.mem_cons.mp hs with e1 | e1
          · subst e1; exact absurd hks hk
          · exact h2 ⟨s, e1, hacts, hks⟩
        · intro hno
          exact h3 (fun ⟨s, hs, hx⟩ => hno ⟨s, List.mem_cons_of_mem _ hs, hx⟩)

theorem walk_clean (hash : List Nat → Nat) (h : Heap) (l : List Ptr) :
    ∀ t n, 0 ∉ l → (l.map (fun x => hash (h x).name)).Nodup →
      (∀ x ∈ l, ∃ s ∈ t, s.flags % 2 = 1 ∧ s.hashkey = hash (h x).name) →
      (∀ s ∈ t, s.flags % 2 = 1 → s.hashkey ∈ l.map (fun x => hash (h x).name) →
        s.flags &&& 128 ≠ 128) →
      walkVector hash h l t n
        = some (t.map (touchAll (l.map (fun x => hash (h x).name))), n) := by
  induction l with
  | nil =>
    intro t n _ _ _ _
    have : t.map (touchAll []) = t := by
      conv_rhs => rw [← List.map_id t]
      rfl
    simp [walkVector, this]
  | cons x0 rest ih =>
    intro t n h0 hnd hex hclear
    have hx0 : x0 ≠ 0 := fun e => h0 (by simp [e])
    have hrest : 0 ∉ rest := fun e => h0 (List.mem_cons_of_mem _ e)
    simp only [List.map_cons, List.nodup_cons] at hnd
    obtain ⟨m1, h1, h2, _⟩ := markSlots_clean hash h hx0 t
      (fun s hs hact hk => hclear s hs hact (by simp [hk])) 0 n
    have hm1 : m1 = 1 := h2 (hex x0 (List.mem_cons_self _ _))
    subst hm1
    have hrec := ih (t.map (touch (hash (h x0).name))) n hrest hnd.2
      (by
        intro x hx
        obtain ⟨s, hs, hact, hk⟩ := hex x (List.mem_cons_of_mem _ hx)
        exact ⟨touch (hash (h x0).name) s, List.mem_map.mpr ⟨s, hs, rfl⟩,
          by rw [touch_flags_mod]; exact hact, by rw [touch_hashkey]; exact hk⟩)
      (by
        intro s1 hs1 hact1 hk1
        obtain ⟨s, hs, rfl⟩ := List.mem_map.mp hs1
        rw [touch_flags_mod] at hact1
        rw [touch_hashkey] at hk1
        have hne : s.hashkey ≠ hash (h x0).name := by
          intro e; rw [e] at hk1; exact hnd.1 hk1
        rw [touch_other hne]
        exact hclear s hs hact1 (by simp [hk1]))
    simp only [walkVector, h1, if_false, one_ne_zero, hrec, List.map_map, List.map_cons]
    rfl

theorem touchAll_free (cs : List Nat) {e : NC_hentry} (h : e.flags % 2 = 0) :
    touchAll cs e = e := by
  induction cs with
  | nil => rfl
  | cons c cs ih => simp only [touchAll, List.foldl_cons, touch_free h]; exact ih

theorem touchAll_not_mem (cs : List Nat) {e : NC_hentry} (h : e.hashkey ∉ cs) :
    touchAll cs e = e := by
  induction cs with
  | nil => rfl
  | cons c cs ih =>
    have hc : e.hashkey ≠ c := fun e1 => h (by simp [e1])
    simp only [touchAll, List.foldl_cons, touch_other hc]
    exact ih (fun hm => h (List.mem_cons_of_mem _ hm))

theorem touchAll_once (cs : List Nat) (hnd : cs.Nodup) {e : NC_hentry} (hf : e.flags = 1)
    (hm : e.hashkey ∈ cs) : touchAll cs e = { e with flags := 129 } := by
  induction cs with
  | nil => simp at hm
  | cons c cs ih =>
    simp only [List.nodup_cons] at hnd
    by_cases hc : e.hashkey = c
    · have h1 : touch c e = { e with flags := 129 } := by simp [touch, hf, hc]
      simp only [touchAll, List.foldl_cons, h1]
      exact touchAll_not_mem cs (by simpa [hc] using hnd.1)
    · have hm' : e.hashkey ∈ cs := by
        rcases List.mem_cons.mp hm with e1 | e1
        · exact absurd e1 hc
        · exact e1
      simp only [touchAll, List.foldl_cons, touch_other hc]
      exact ih hnd.2 hm'

theorem countUnmarked_clean (t : List NC_hentry)
    (hall : ∀ s ∈ t, s.flags % 2 = 1 → s.flags &&& 128 = 128) :
    ∀ n, countUnmarked t n = n := by
  induction t with
  | nil => intro n; rfl
  | cons e es ih =>
    intro n
    have ih' := ih (fun s hs => hall s (List.mem_cons_of_mem _ hs))
    by_cases hf : e.flags % 2 = 0
    · simp [countUnmarked, Nat.and_one_is_mod, hf, ih']
    · have := hall e (List.mem_cons_self _ _) (by omega)
      simp [countUnmarked, Nat.and_one_is_mod, hf, this, ih']

theorem NC_listmap_next_ge {lm : NC_listmap} {i : Nat} (hi : nclistlength lm.list ≤ i) :
    NC_listmap_next lm i = (0, 0) := by
  unfold NC_listmap_next
  by_cases h0 : nclistlength lm.list = 0
  · simp [h0]
  · simp [h0, hi]

theorem NC_listmap_next_lt {lm : NC_listmap} {i : Nat} (hi : i < nclistlength lm.list) :
    NC_listmap_next lm i = (i + 1, nclistget lm.list i) := by
  unfold NC_listmap_next
  have h0 : nclistlength lm.list ≠ 0 := by omega
  have h1 : ¬ i ≥ nclistlength lm.list := by omega
  simp only [h0, h1, if_false]

theorem nextLoop_drop (lm : NC_listmap) :
    ∀ fuel iter, iter ≤ nclistlength lm.list → nclistlength lm.list - iter < fuel →
      nextLoop lm fuel iter = some (lm.list.drop iter) := by
  intro fuel
  induction fuel with
  | zero => intro iter _ h; omega
  | succ fuel ih =>
    intro iter hle hlt
    by_cases hi : iter < nclistlength lm.list
    · have hi' : iter < lm.list.length := hi
      have hg : nclistget lm.list iter = lm.list[iter] := by
        simp [nclistget, List.getD_eq_getElem?_getD, hi']
      have hrec := ih (iter + 1) (by omega) (by omega)
      simp only [nextLoop, NC_listmap_next_lt hi, Nat.succ_ne_zero, if_false, hrec,
        Option.map_some', hg]
      rw [List.drop_eq_getElem_cons hi']
    · have hge : nclistlength lm.list ≤ iter := by omega
      have hd : lm.list.drop iter = [] := List.drop_eq_nil_of_le hge
      simp [nextLoop, NC_listmap_next_ge hge, hd]

theorem nextLoop_none (lm : NC_listmap) :
    ∀ fuel iter, iter + fuel ≤ nclistlength lm.list → nextLoop lm fuel iter = none := by
  intro fuel
  induction fuel with
  | zero => intro iter _; rfl
  | succ fuel ih =>
    intro iter hle
    have hi : iter < nclistlength lm.list := by omega
    have hrec := ih (iter + 1) (by omega)
    simp [nextLoop, NC_listmap_next_lt hi, hrec]

/-- Scenario A is reachable. -/
theorem scenarioA_reachable : Reachable sampleHash scenarioHeap scenarioA :=
  Reachable_addAll sampleHash scenarioHeap [1, 2] _ _ (Reachable.init 0) (by decide)
    (by intro _ _ e he; simp [NC_listmap_init] at he) scenarioA_built

theorem verify_idmap (hash : List Nat → Nat) (h : Heap) (lm : NC_listmap) (m : NC_hashmap)
    (dump : Nat) :
    NC_listmap_verify hash h { lm with idmap := m } dump
      = (NC_listmap_verify hash h lm dump).map (fun r => (r.1, { r.2 with idmap := m })) := by
  unfold NC_listmap_verify
  simp only []
  split
  · rfl
  · split
    · rfl
    · cases walkVector hash h lm.list lm.namemap.table
          (verifyMapToVector h lm.list lm.namemap.table 0) with
      | none => rfl
      | some r => rfl

/-! ## The claims -/

/-- C1: starting from an initialised empty container, a sequence of
`NC_listmap_add` calls on non-null objects with pairwise distinct names and
pairwise distinct ids succeeds, the vector is the sequence of the added
objects, and `NC_listmap_get` / `NC_listmap_iget` return, for every added
object's name / id, exactly the pointer that was passed to add. -/
theorem add_round_trip (hash : List Nat → Nat) (h : Heap) (size0 : Nat) (objs : List Ptr)
    (hd : DistinctObjs h objs) :
    ∃ lm, addAll hash h objs (NC_listmap_init size0).2 = some lm ∧ lm.list = objs ∧
      ∀ obj ∈ objs, NC_listmap_get lm (h obj).name = obj ∧
        NC_listmap_iget lm (h obj).id = obj := by
  obtain ⟨lm1, h1, h2, h3⟩ := addAll_spec hash h objs _ (Inv_init h size0) hd
    (fun _ _ p hp => absurd (nclistget_ge (Nat.zero_le p)) hp)
  have hl : lm1.list = objs := by simpa [NC_listmap_init] using h2
  refine ⟨lm1, h1, hl, ?_⟩
  intro obj hobj
  exact Inv_get h3 (by rw [hl]; exact hobj) (hd.1 obj hobj).1

/-- Witness for C1: `init(0)`, `add {x,1}`, `add {y,2}`. -/
theorem add_round_trip_witness :
    DistinctObjs scenarioHeap [1, 2] ∧
    ∃ lm, addAll sampleHash scenarioHeap [1, 2] (NC_listmap_init 0).2 = some lm ∧
      lm.list = [1, 2] ∧
      ∀ obj ∈ [1, 2], NC_listmap_get lm (scenarioHeap obj).name = obj ∧
        NC_listmap_iget lm (scenarioHeap obj).id = obj :=
  ⟨by decide, add_round_trip sampleHash scenarioHeap 0 [1, 2] (by decide)⟩

/-- C2: in a container built by adds of objects with distinct names and ids,
`NC_listmap_del` of the entry stored at position `pos` returns 1; afterwards
`NC_listmap_get` of its name and `NC_listmap_iget` of its id return `NULL`,
`NC_listmap_ith` at `pos` returns `NULL`, the vector has the same length, and
`NC_listmap_next` at `pos` returns `pos + 1` with a `NULL` entry. -/
theorem del_leaves_hole (hash : List Nat → Nat) (h : Heap) (size0 : Nat) (objs : List Ptr)
    (lm : NC_listmap) (pos : Nat) (e : Ptr) (hd : DistinctObjs h objs)
    (hbuilt : addAll hash h objs (NC_listmap_init size0).2 = some lm)
    (he : objs[pos]? = some e) :
    (NC_listmap_del h lm e).1 = 1 ∧
    NC_listmap_get (NC_listmap_del h lm e).2 (h e).name = 0 ∧
    NC_listmap_iget (NC_listmap_del h lm e).2 (h e).id = 0 ∧
    NC_listmap_ith (NC_listmap_del h lm e).2 pos = 0 ∧
    nclistlength (NC_listmap_del h lm e).2.list = nclistlength lm.list ∧
    NC_listmap_next (NC_listmap_del h lm e).2 pos = (pos + 1, 0) := by
  obtain ⟨hl, hinv⟩ := built_Inv hd hbuilt
  have hmem : e ∈ objs := List.mem_iff_getElem?.mpr ⟨pos, he⟩
  have he0 : e ≠ 0 := (hd.1 e hmem).1
  have hget : nclistget lm.list pos = e := by rw [hl]; exact nclistget_of_getElem? he
  have hp0 : nclistget lm.list pos ≠ 0 := by rw [hget]; exact he0
  have hlt : pos < lm.list.length := nclistget_lt hp0
  obtain ⟨g1, g2⟩ := hinv.i1 pos hp0
  have r1 := NC_hashmapremove_of_get g1
  have r2 := NC_hashmapremove_of_get g2
  have hdel := NC_listmap_del_eq hinv hp0
  rw [hget] at hdel g1 g2 r1 r2
  rw [hdel]
  refine ⟨rfl, ?_, ?_, ?_, ?_, ?_⟩
  · simp [NC_listmap_get, NC_hashmapget_remove_same hinv.uname r1]
  · simp [NC_listmap_iget, NC_hashmapget_remove_same hinv.uid r2]
  · exact nclistget_set_same _ _
  · simp [nclistlength, nclistset]
  · have hne : lm.list.length ≠ 0 := by omega
    have hlen : (nclistset lm.list pos 0).length = lm.list.length := by simp [nclistset]
    have hge : ¬ pos ≥ (nclistset lm.list pos 0).length := by omega
    have hne1 : (nclistset lm.list pos 0).length ≠ 0 := by omega
    simp only [NC_listmap_next, nclistlength, hne1, hge, if_false, nclistget_set_same]

/-- Witness for C2: scenario A, then `del` of `{x,1}` stored at position 0. -/
theorem del_leaves_hole_witness :
    (DistinctObjs scenarioHeap [1, 2] ∧
      addAll sampleHash scenarioHeap [1, 2] (NC_listmap_init 0).2 = some scenarioA ∧
      [1, 2][0]? = some 1) ∧
    (NC_listmap_del scenarioHeap scenarioA 1).1 = 1 ∧
    NC_listmap_get (NC_listmap_del scenarioHeap scenarioA 1).2 (scenarioHeap 1).name = 0 ∧
    NC_listmap_iget (NC_listmap_del scenarioHeap scenarioA 1).2 (scenarioHeap 1).id = 0 ∧
    NC_listmap_ith (NC_listmap_del scenarioHeap scenarioA 1).2 0 = 0 ∧
    nclistlength (NC_listmap_del scenarioHeap scenarioA 1).2.list = nclistlength scenarioA.list ∧
    NC_listmap_next (NC_listmap_del scenarioHeap scenarioA 1).2 0 = (0 + 1, 0) :=
  ⟨⟨by decide, by decide, by decide⟩,
   del_leaves_hole sampleHash scenarioHeap 0 [1, 2] scenarioA 0 1 (by decide) (by decide)
     (by decide)⟩

/-- C3: in a container built by adds of objects with distinct names and ids,
after `NC_listmap_del` of an entry `X`, every other entry `Y` is still at its
position of the vector and is still returned by `NC_listmap_get` of its name
and `NC_listmap_iget` of its id. -/
theorem del_keeps_others (hash : List Nat → Nat) (h : Heap) (size0 : Nat) (objs : List Ptr)
    (lm : NC_listmap) (px py : Nat) (X Y : Ptr) (hd : DistinctObjs h objs)
    (hbuilt : addAll hash h objs (NC_listmap_init size0).2 = some lm)
    (hX : objs[px]? = some X) (hY : objs[py]? = some Y) (hne : X ≠ Y) :
    NC_listmap_ith lm py = Y ∧
    NC_listmap_ith (NC_listmap_del h lm X).2 py = Y ∧
    NC_listmap_get (NC_listmap_del h lm X).2 (h Y).name = Y ∧
    NC_listmap_iget (NC_listmap_del h lm X).2 (h Y).id = Y := by
  obtain ⟨hl, hinv⟩ := built_Inv hd hbuilt
  have hX0 : X ≠ 0 := (hd.1 X (List.mem_iff_getElem?.mpr ⟨px, hX⟩)).1
  have hY0 : Y ≠ 0 := (hd.1 Y (List.mem_iff_getElem?.mpr ⟨py, hY⟩)).1
  have gX : nclistget lm.list px = X := by rw [hl]; exact nclistget_of_getElem? hX
  have gY : nclistget lm.list py = Y := by rw [hl]; exact nclistget_of_getElem? hY
  have hpx : nclistget lm.list px ≠ 0 := by rw [gX]; exact hX0
  have hpp : py ≠ px := by
    intro e; rw [e, gX] at gY; exact hne gY
  have hinv1 := Inv_del hinv hpx
  have hdel := NC_listmap_del_eq hinv hpx
  rw [gX] at hinv1 hdel
  have gY1 : nclistget (NC_listmap_del h lm X).2.list py = Y := by
    rw [hdel]; simp only [nclistget_set_other _ _ hpp]; exact gY
  have hmem : Y ∈ (NC_listmap_del h lm X).2.list := by
    rw [← gY1]; exact nclistget_mem_of_ne (by rw [gY1]; exact hY0)
  exact ⟨gY, gY1, Inv_get hinv1 hmem hY0⟩

/-- Witness for C3: scenario A, `del` of `{x,1}`; `{y,2}` stays at position 1. -/
theorem del_keeps_others_witness :
    (DistinctObjs scenarioHeap [1, 2] ∧
      addAll sampleHash scenarioHeap [1, 2] (NC_listmap_init 0).2 = some scenarioA ∧
      [1, 2][0]? = some 1 ∧ [1, 2][1]? = some 2 ∧ (1 : Ptr) ≠ 2) ∧
    NC_listmap_ith scenarioA 1 = 2 ∧
    NC_listmap_ith (NC_listmap_del scenarioHeap scenarioA 1).2 1 = 2 ∧
    NC_listmap_get (NC_listmap_del scenarioHeap scenarioA 1).2 (scenarioHeap 2).name = 2 ∧
    NC_listmap_iget (NC_listmap_del scenarioHeap scenarioA 1).2 (scenarioHeap 2).id = 2 :=
  ⟨⟨by decide, by decide, by decide, by decide, by decide⟩,
   del_keeps_others sampleHash scenarioHeap 0 [1, 2] scenarioA 0 1 1 2 (by decide) (by decide)
     (by decide) (by decide) (by decide)⟩

/-- C4: `NC_listmap_rehash` succeeds on every container, and afterwards the
vector is the old vector with all `NULL` holes deleted, the surviving entries
in their old relative order; so it has no hole and its length is the number
of live entries before the call. -/
theorem rehash_compacts (hash : List Nat → Nat) (h : Heap) (lm : NC_listmap) :
    ∃ lm1, NC_listmap_rehash hash h lm = some (1, lm1) ∧
      lm1.list = lm.list.filter (fun p => p ≠ 0) ∧
      (∀ p, p < nclistlength lm1.list → NC_listmap_ith lm1 p ≠ 0) ∧
      nclistlength lm1.list = lm.list.countP (fun p => p ≠ 0) := by
  obtain ⟨lm1, h1, h2⟩ := addAll_total hash h (liveEntries lm.list)
    (NC_listmap_init lm.list.length).2 (fun o ho => (liveEntries_mem.mp ho).2)
  have hl : lm1.list = lm.list.filter (fun p => p ≠ 0) := by
    simpa [NC_listmap_init, liveEntries] using h2
  refine ⟨lm1, ?_, hl, ?_, ?_⟩
  · rw [NC_listmap_rehash_eq, h1]; rfl
  · intro p hp
    have hp' : p < lm1.list.length := hp
    have hm : lm1.list[p] ∈ lm.list.filter (fun p => p ≠ 0) := by
      rw [← hl]; exact List.getElem_mem hp'
    have : NC_listmap_ith lm1 p = lm1.list[p] := by
      simp [NC_listmap_ith, nclistget, List.getD_eq_getElem?_getD, hp']
    rw [this]
    simpa using (List.mem_filter.mp hm).2
  · rw [hl, nclistlength, List.countP_eq_length_filter]

/-- C5: when the live entries of a container currently have pairwise distinct
names and pairwise distinct ids (whatever keys the indices were built from),
`NC_listmap_rehash` succeeds and afterwards every surviving entry is returned
by `NC_listmap_get` of its current name and by `NC_listmap_iget` of its
current id, while a name or id that no live entry currently carries is
reported not found (`NULL`). -/
theorem rehash_rederives_keys (hash : List Nat → Nat) (h : Heap) (lm : NC_listmap)
    (hd : DistinctObjs h (lm.list.filter (fun p => p ≠ 0))) :
    ∃ lm1, NC_listmap_rehash hash h lm = some (1, lm1) ∧
      (∀ e ∈ lm.list, e ≠ 0 →
        NC_listmap_get lm1 (h e).name = e ∧ NC_listmap_iget lm1 (h e).id = e) ∧
      (∀ n, (∀ e ∈ lm.list, e ≠ 0 → (h e).name ≠ n) → NC_listmap_get lm1 n = 0) ∧
      (∀ i, i < 2 ^ 64 → (∀ e ∈ lm.list, e ≠ 0 → (h e).id ≠ i) →
        NC_listmap_iget lm1 i = 0) := by
  obtain ⟨lm1, h1, h2, h3⟩ := addAll_spec hash h (liveEntries lm.list)
    (NC_listmap_init lm.list.length).2 (Inv_init h _) hd
    (fun _ _ p hp => absurd (nclistget_ge (Nat.zero_le p)) hp)
  have hl : lm1.list = liveEntries lm.list := by simpa [NC_listmap_init] using h2
  refine ⟨lm1, ?_, ?_, ?_, ?_⟩
  · rw [NC_listmap_rehash_eq, h1]; rfl
  · intro e he he0
    exact Inv_get h3 (by rw [hl]; exact liveEntries_mem.mpr ⟨he, he0⟩) he0
  · intro n hn
    apply Inv_get_stale h3
    intro e he
    rw [hl] at he
    have hh := liveEntries_mem.mp he
    exact hn e (liveEntries_mem.mp hh.1).1 hh.2
  · intro i hi hn
    apply Inv_iget_stale h3 i hi
    intro e he
    rw [hl] at he
    have hh := liveEntries_mem.mp he
    exact hn e (liveEntries_mem.mp hh.1).1 hh.2

/-- Witness for C5: in scenario A object 1 is renamed from `x` to `z` before
the rehash. -/
theorem rehash_rederives_keys_witness :
    DistinctObjs (setName scenarioHeap 1 [122]) (scenarioA.list.filter (fun p => p ≠ 0)) ∧
    ∃ lm1, NC_listmap_rehash sampleHash (setName scenarioHeap 1 [122]) scenarioA
        = some (1, lm1) ∧
      (∀ e ∈ scenarioA.list, e ≠ 0 →
        NC_listmap_get lm1 (setName scenarioHeap 1 [122] e).name = e ∧
        NC_listmap_iget lm1 (setName scenarioHeap 1 [122] e).id = e) ∧
      (∀ n, (∀ e ∈ scenarioA.list, e ≠ 0 → (setName scenarioHeap 1 [122] e).name ≠ n) →
        NC_listmap_get lm1 n = 0) ∧
      (∀ i, i < 2 ^ 64 →
        (∀ e ∈ scenarioA.list, e ≠ 0 → (setName scenarioHeap 1 [122] e).id ≠ i) →
        NC_listmap_iget lm1 i = 0) :=
  ⟨by decide,
   rehash_rederives_keys sampleHash (setName scenarioHeap 1 [122]) scenarioA (by decide)⟩

/-- C6: in every state reachable from `NC_listmap_init` by add (of an object
whose name and id differ from those of all live entries), del / idel of a
stored entry and rehash, with the heap unchanged, invariant I1 (every live
entry at position `p` is registered under its name and its id with position
`p`) and invariant I2 (every key present in either index maps to a position
holding a non-null entry) hold. -/
theorem reachable_invariants (hash : List Nat → Nat) (h : Heap) (lm : NC_listmap)
    (hr : Reachable hash h lm) : I1 h lm ∧ I2 lm := by
  have hinv := Reachable_Inv hr
  exact ⟨hinv.i1, fun k p hk => (hinv.nameBack k p hk).1, fun k p hk => (hinv.idBack k p hk).1⟩

/-- Witness for C6: scenario B (`init`, two adds, one del) is reachable. -/
theorem reachable_invariants_witness :
    Reachable sampleHash scenarioHeap scenarioB ∧ I1 scenarioHeap scenarioB ∧ I2 scenarioB :=
  ⟨scenarioB_reachable,
   reachable_invariants sampleHash scenarioHeap scenarioB scenarioB_reachable⟩

/-- C7: `NC_listmap_verify` does not return on a reachable container that
holds a hole and at least one live entry: the vector walk evaluates
`xp->name` for the `NULL` element of the vector (`none`: a `NULL`
dereference) instead of skipping it. -/
theorem verify_undefined_of_hole (hash : List Nat → Nat) (h : Heap) (lm : NC_listmap)
    (obj : Ptr) (hr : Reachable hash h lm) (hole : 0 ∈ lm.list) (hobj : obj ∈ lm.list)
    (hlive : obj ≠ 0) :
    NC_listmap_verify hash h lm 0 = none := by
  have hinv := Reachable_Inv hr
  obtain ⟨hwf, _⟩ := Reachable_WF hr
  obtain ⟨p, hp⟩ := nclistget_mem hobj
  have hp0 : nclistget lm.list p ≠ 0 := by rw [hp]; exact hlive
  have g1 := (hinv.i1 p hp0).1
  obtain ⟨s, hs⟩ : ∃ s, lm.namemap.table.find?
      (slotHolds (h (nclistget lm.list p)).name) = some s := by
    cases hf : lm.namemap.table.find? (slotHolds (h (nclistget lm.list p)).name) with
    | some s => exact ⟨s, rfl⟩
    | none => simp [NC_hashmapget, hf] at g1
  have hsmem : s ∈ lm.namemap.table := List.mem_of_find?_eq_some hs
  have hsact : s.flags % 2 = 1 := by
    simpa [Nat.and_one_is_mod] using (slotHolds_key (List.find?_some hs)).1
  have hcount : lm.namemap.count ≠ 0 := by
    rw [hwf.2.2]
    have : (h (nclistget lm.list p)).name ∈ heldKeys lm.namemap.table := by
      by_contra hn
      rw [(find_none_iff _ _).mpr hn] at hs
      exact Option.noConfusion hs
    exact List.length_pos_iff_ne_nil.mp (List.length_pos_of_mem this) ∘ List.length_eq_zero.mp
  have hlen : nclistlength lm.list ≠ 0 := by
    have := List.length_pos_of_mem hobj
    simp only [nclistlength]; omega
  simp only [NC_listmap_verify, ne_eq, not_true_eq_false, false_and, if_false, hlen, hcount,
    or_self, walk_null hash h lm.list _ _ hole ⟨s, hsmem, hsact⟩]

/-- Witness for C7, on the spec's own scenarios: Scenario B (`init(0)`,
`add x`, `add y`, `del x`; vector `[NULL, y]`) is reachable and
`NC_listmap_verify` returns nothing on it; after rehash (Scenario C) it
returns 1. -/
theorem verify_undefined_of_hole_witness :
    (Reachable sampleHash scenarioHeap scenarioB ∧ 0 ∈ scenarioB.list ∧
      2 ∈ scenarioB.list ∧ (2 : Ptr) ≠ 0) ∧
    NC_listmap_verify sampleHash scenarioHeap scenarioB 0 = none ∧
    NC_listmap_rehash sampleHash scenarioHeap scenarioB = some (1, scenarioC) ∧
    NC_listmap_verify sampleHash scenarioHeap scenarioC 0 = some (1, scenarioC) :=
  ⟨⟨scenarioB_reachable, by decide, by decide, by decide⟩,
   verify_undefined_of_hole sampleHash scenarioHeap scenarioB 2 scenarioB_reachable
     (by decide) (by decide) (by decide),
   by decide, by decide⟩

/-- The auditor is sound where it is defined: on a reachable container
without holes, in which different live entries have names of different
hashes, `NC_listmap_verify` returns 1 and leaves the container as it was. -/
theorem verify_valid_of_no_hole (hash : List Nat → Nat) (h : Heap) (lm : NC_listmap)
    (hr : Reachable hash h lm) (hno : 0 ∉ lm.list)
    (hinj : ∀ a ∈ lm.list, ∀ b ∈ lm.list, hash (h a).name = hash (h b).name → a = b) :
    NC_listmap_verify hash h lm 0 = some (1, lm) := by
  have hinv := Reachable_Inv hr
  obtain ⟨hwf, _⟩ := Reachable_WF hr
  -- every occupied slot is the slot of the live entry at its position
  have hslot : ∀ s ∈ lm.namemap.table, s.flags % 2 = 1 →
      s.flags = 1 ∧ nclistget lm.list s.data ≠ 0 ∧
      (h (nclistget lm.list s.data)).name = s.key ∧ s.keysize = s.key.length ∧
      s.hashkey = hash s.key := by
    intro s hs hact
    obtain ⟨hf, hsz, hh⟩ := WF_active (hwf.1 s hs) hact
    have hhold : slotHolds s.key s = true := by
      simp [slotHolds, Nat.and_one_is_mod, hact, hsz]
    have hg : NC_hashmapget lm.namemap s.key = some s.data := by
      simp [NC_hashmapget, find_unique hwf.2.1 hs hhold]
    obtain ⟨b1, b2⟩ := hinv.nameBack _ _ hg
    exact ⟨hf, b1, b2, hsz, hh⟩
  have hmv : verifyMapToVector h lm.list lm.namemap.table 0 = 0 := by
    apply verifyMapToVector_clean
    intro s hs hact
    obtain ⟨_, b1, b2, hsz, _⟩ := hslot s hs hact
    exact ⟨b1, by rw [b2, hsz]; exact memcmpName_self _⟩
  by_cases hexit : nclistlength lm.list = 0 ∨ lm.namemap.count = 0
  · simp [NC_listmap_verify, hexit, hmv]
  · have hlive : liveEntries lm.list = lm.list := by
      simp only [liveEntries, List.filter_eq_self]
      intro a ha
      have : a ≠ 0 := fun e => hno (by rw [← e]; exact ha)
      simpa using this
    have hnd : (lm.list.map (fun x => hash (h x).name)).Nodup := by
      have hd := (Inv_distinct hinv).2.1
      rw [hlive] at hd
      exact List.Nodup.map_on (fun a ha b hb e => hinj a ha b hb e) (List.Nodup.of_map _ hd)
    have hw := walk_clean hash h lm.list lm.namemap.table 0 hno hnd
      (by
        intro x hx
        have hx0 : x ≠ 0 := fun e => hno (e ▸ hx)
        obtain ⟨p, hp⟩ := nclistget_mem hx
        have g1 := (hinv.i1 p (by rw [hp]; exact hx0)).1
        rw [hp] at g1
        cases hf : lm.namemap.table.find? (slotHolds (h x).name) with
        | none => simp [NC_hashmapget, hf] at g1
        | some s =>
          have hsmem := List.mem_of_find?_eq_some hf
          have hsh := slotHolds_key (List.find?_some hf)
          have hact : s.flags % 2 = 1 := by simpa [Nat.and_one_is_mod] using hsh.1
          exact ⟨s, hsmem, hact, by rw [(hslot s hsmem hact).2.2.2.2, hsh.2.2]⟩)
      (by
        intro s hs hact _
        rw [(hslot s hs hact).1]; decide)
    have hfinal : ∀ s ∈ lm.namemap.table,
        (s.flags % 2 = 0 ∧
          touchAll (lm.list.map (fun x => hash (h x).name)) s = s) ∨
        (s.flags = 1 ∧
          touchAll (lm.list.map (fun x => hash (h x).name)) s = { s with flags := 129 }) := by
      intro s hs
      by_cases hf : s.flags % 2 = 0
      · exact Or.inl ⟨hf, touchAll_free _ hf⟩
      · have hact : s.flags % 2 = 1 := by omega
        obtain ⟨h1, b1, b2, _, hh⟩ := hslot s hs hact
        refine Or.inr ⟨h1, touchAll_once _ hnd h1 ?_⟩
        exact List.mem_map.mpr ⟨_, nclistget_mem_of_ne b1, by rw [b2, hh]⟩
    have hcu : countUnmarked
        (lm.namemap.table.map (touchAll (lm.list.map (fun x => hash (h x).name)))) 0 = 0 := by
      apply countUnmarked_clean
      intro s1 hs1 hact1
      obtain ⟨s, hs, rfl⟩ := List.mem_map.mp hs1
      rcases hfinal s hs with ⟨hf, he⟩ | ⟨_, he⟩
      · rw [he] at hact1; omega
      · rw [he]; show 129 &&& 128 = 128; decide
    have hct : clearTouched
        (lm.namemap.table.map (touchAll (lm.list.map (fun x => hash (h x).name))))
          = lm.namemap.table := by
      simp only [clearTouched, List.map_map]
      conv_rhs => rw [← List.map_id lm.namemap.table]
      apply List.map_congr_left
      intro s hs
      rcases hfinal s hs with ⟨hf, he⟩ | ⟨hf, he⟩
      · have hs0 : s.flags = 0 := by
          rcases hwf.1 s hs with h0 | h1
          · exact h0
          · rw [h1.1] at hf; omega
        simp only [Function.comp, he, hs0, id]
        cases s; simp_all
      · simp only [Function.comp, he, id]
        cases s
        simp only [NC_hentry.mk.injEq, and_true] at hf ⊢
        rw [hf]; decide
    simp only [NC_listmap_verify, ne_eq, not_true_eq_false, false_and, if_false, hexit, hmv,
      hw, hcu, hct, lt_self_iff_false]

/-- C8 (amended): in a container built by adds of objects with distinct names
and ids, when the name of one entry is then changed (no rehash) to a name
that the old name is not a byte prefix of, or whose hash differs from the
hash of the old name, `NC_listmap_verify` returns 0. -/
theorem verify_detects_rename (hash : List Nat → Nat) (h : Heap) (size0 : Nat)
    (objs : List Ptr) (lm : NC_listmap) (e : Ptr) (new : List Nat)
    (hd : DistinctObjs h objs)
    (hbuilt : addAll hash h objs (NC_listmap_init size0).2 = some lm)
    (he : e ∈ objs) (hz : 0 ∉ (h e).name)
    (hdet : ¬ (h e).name <+: new ∨ hash new ≠ hash (h e).name) :
    ∃ lm1, NC_listmap_verify hash (setName h e new) lm 0 = some (0, lm1) := by
  obtain ⟨hl, hinv⟩ := built_Inv hd hbuilt
  obtain ⟨hwf, _⟩ := addAll_WF hash h objs _ lm (WF_new hash _) (WF_new hash _) hbuilt
  have h0 : (0 : Ptr) ∉ lm.list := by
    rw [hl]; intro hm; exact (hd.1 0 hm).1 rfl
  have hel : e ∈ lm.list := by rw [hl]; exact he
  have he0 : e ≠ 0 := (hd.1 e he).1
  obtain ⟨p, hp⟩ := nclistget_mem hel
  have hp0 : nclistget lm.list p ≠ 0 := by rw [hp]; exact he0
  have g1 := (hinv.i1 p hp0).1
  rw [hp] at g1
  -- the slot that stores the old name
  obtain ⟨s, hs⟩ : ∃ s, lm.namemap.table.find? (slotHolds (h e).name) = some s := by
    cases hf : lm.namemap.table.find? (slotHolds (h e).name) with
    | some s => exact ⟨s, rfl⟩
    | none => simp [NC_hashmapget, hf] at g1
  have hsmem : s ∈ lm.namemap.table := List.mem_of_find?_eq_some hs
  have hsh := slotHolds_key (List.find?_some hs)
  have hsd : s.data = p := by simpa [NC_hashmapget, hs] using g1
  have hsact : s.flags % 2 = 1 := by simpa [Nat.and_one_is_mod] using hsh.1
  have hcount : lm.namemap.count ≠ 0 := by
    rw [hwf.2.2]
    have : (h e).name ∈ heldKeys lm.namemap.table := by
      by_contra hn
      rw [(find_none_iff _ _).mpr hn] at hs
      exact Option.noConfusion hs
    exact List.length_pos_iff_ne_nil.mp (List.length_pos_of_mem this) ∘ List.length_eq_zero.mp
  have hlen : nclistlength lm.list ≠ 0 := by
    have := List.length_pos_of_mem hel
    simp only [nclistlength]; omega
  obtain ⟨t1, n1, hw, hle⟩ := walk_total hash (setName h e new) lm.list lm.namemap.table
    (verifyMapToVector (setName h e new) lm.list lm.namemap.table 0) h0
  have hpos : 0 < n1 := by
    rcases hdet with hnp | hne
    · have hbad : memcmpName (setName h e new (nclistget lm.list s.data)).name s.key s.keysize
          = false := by
        rw [hsd, hp, setName_name_self, hsh.2.2, hsh.2.1]
        exact memcmpName_not_prefix hz hnp
      exact lt_of_lt_of_le
        (verifyMapToVector_lt (setName h e new) lm.list s hsact (by rw [hsd]; exact hp0) hbad
          lm.namemap.table 0 hsmem) hle
    · by_cases hex : ∃ s2 ∈ lm.namemap.table, s2.flags % 2 = 1 ∧ s2.hashkey = hash new
      · obtain ⟨s2, hs2, hact2, hk2⟩ := hex
        obtain ⟨hf2, hsz2, hh2⟩ := WF_active (hwf.1 s2 hs2) hact2
        obtain ⟨s3, hs3⟩ := find_of_holds hs2 hact2 hsz2
        have g3 : NC_hashmapget lm.namemap s2.key = some s3.data := by
          simp [NC_hashmapget, hs3]
        obtain ⟨b1, b2⟩ := hinv.nameBack _ _ g3
        have hye : nclistget lm.list s3.data ≠ e := by
          intro hy
          rw [hy] at b2
          apply hne
          rw [b2, ← hh2, hk2]
        have hyn : hash (setName h e new (nclistget lm.list s3.data)).name = s2.hashkey := by
          rw [setName_other h new hye, b2, hh2]
        have hen : hash (setName h e new e).name = s2.hashkey := by
          rw [setName_name_self, hk2]
        exact lt_of_le_of_lt (Nat.zero_le _)
          (walk_twice hash (setName h e new) _ e s2 hf2 hyn hen hye lm.list _ _ _ _ h0
            (nclistget_mem_of_ne b1) hel hs2 hw)
      · have hall : ∀ s2 ∈ lm.namemap.table, s2.flags % 2 = 1 →
            s2.hashkey ≠ hash (setName h e new e).name := by
          intro s2 hs2 hact2 hk2
          rw [setName_name_self] at hk2
          exact hex ⟨s2, hs2, hact2, hk2⟩
        exact lt_of_le_of_lt (Nat.zero_le _)
          (walk_unmatched hash (setName h e new) e lm.list _ _ _ _ h0 hel hall hw)
  have hfin : 0 < countUnmarked t1 n1 := lt_of_lt_of_le hpos (countUnmarked_le t1 n1)
  refine ⟨{ lm with namemap := { lm.namemap with table := clearTouched t1 } }, ?_⟩
  simp only [NC_listmap_verify, ne_eq, not_true_eq_false, false_and, if_false, hlen, hcount,
    or_self, hw, hfin, if_true]

/-- Witness for C8 (amended): in scenario A object 1 is renamed from `x` to
`xz`; `x` is a prefix of `xz` but the hashes differ. -/
theorem verify_detects_rename_witness :
    (DistinctObjs scenarioHeap [1, 2] ∧
      addAll sampleHash scenarioHeap [1, 2] (NC_listmap_init 0).2 = some scenarioA ∧
      1 ∈ [1, 2] ∧ 0 ∉ (scenarioHeap 1).name ∧ (scenarioHeap 1).name <+: [120, 122] ∧
      sampleHash [120, 122] ≠ sampleHash (scenarioHeap 1).name) ∧
    ∃ lm1, NC_listmap_verify sampleHash (setName scenarioHeap 1 [120, 122]) scenarioA 0
      = some (0, lm1) :=
  ⟨⟨by decide, by decide, by decide, by decide, by decide, by decide⟩,
   verify_detects_rename sampleHash scenarioHeap 0 [1, 2] scenarioA 1 [120, 122] (by decide)
     (by decide) (by decide) (by decide) (Or.inr (by decide))⟩

/-- C8 (counterexample): scenario A is built by adds of `{x,1}` and `{y,2}`;
the name of object 1 is then changed from `x` to `xyy`, which has `x` as a
byte prefix and, under the sample hash, the hash of `x`.  `NC_listmap_verify`
returns 1: the `memcmp` over `keysize` bytes matches and the vector walk
finds the old slot by its hash. -/
theorem verify_misses_rename :
    DistinctObjs scenarioHeap [1, 2] ∧
    addAll sampleHash scenarioHeap [1, 2] (NC_listmap_init 0).2 = some scenarioA ∧
    [120, 121, 121] ≠ (scenarioHeap 1).name ∧
    (scenarioHeap 1).name <+: [120, 121, 121] ∧
    NC_listmap_verify sampleHash (setName scenarioHeap 1 [120, 121, 121]) scenarioA 0
      = some (1, scenarioA) :=
  ⟨by decide, by decide, by decide, by decide, by decide⟩

/-- C9: after `init(0)`, `add {x,1}`, `add {x,2}` both vector entries hash to
the slot of `x`; `NC_listmap_verify` returns 0 and leaves that slot with
`flags = 257` where it was 1 before the call (`flags += 128` twice, then
`flags &= ~128`); the rest of the container is unchanged. -/
theorem verify_changes_flags :
    addAll sampleHash dupNameHeap [1, 2] (NC_listmap_init 0).2 = some dupNameState ∧
    NC_listmap_verify sampleHash dupNameHeap dupNameState 0
      = some (0, { dupNameState with namemap := { count := 1, table :=
          [{ flags := 257, data := 1, hashkey := 120, keysize := 1, key := [120] },
           emptySlot, emptySlot, emptySlot, emptySlot, emptySlot, emptySlot] } }) :=
  ⟨by decide, by decide⟩

/-- C10: for a container whose indices store no key twice and a non-null
target, `NC_listmap_del` returns 1 if and only if the target's id is a key of
the id index and the target's name is a key of the name index; on success the
vector is the old one with `NULL` at the position the id index recorded for
the id (so `NC_listmap_ith` there is `NULL`), and neither key is registered
any more. -/
theorem del_success_iff (h : Heap) (lm : NC_listmap) (target : Ptr)
    (hun : lm.namemap.Unique) (hui : lm.idmap.Unique) (ht : target ≠ 0) :
    ((NC_listmap_del h lm target).1 = 1 ↔
      (NC_hashmapget lm.idmap (idKey (h target).id)).isSome ∧
      (NC_hashmapget lm.namemap (h target).name).isSome) ∧
    (∀ pos, (NC_listmap_del h lm target).1 = 1 →
      NC_hashmapget lm.idmap (idKey (h target).id) = some pos →
      (NC_listmap_del h lm target).2.list = nclistset lm.list pos 0 ∧
      NC_listmap_ith (NC_listmap_del h lm target).2 pos = 0 ∧
      NC_hashmapget (NC_listmap_del h lm target).2.idmap (idKey (h target).id) = none ∧
      NC_hashmapget (NC_listmap_del h lm target).2.namemap (h target).name = none) := by
  cases hi : NC_hashmapget lm.idmap (idKey (h target).id) with
  | none =>
    have r := (NC_hashmapremove_none _ _).mpr hi
    simp [NC_listmap_del, ht, r]
  | some pos =>
    have ri := NC_hashmapremove_of_get hi
    cases hn : NC_hashmapget lm.namemap (h target).name with
    | none =>
      have rn := (NC_hashmapremove_none _ _).mpr hn
      simp [NC_listmap_del, ht, ri, rn]
    | some q =>
      have rn := NC_hashmapremove_of_get hn
      have hdel : NC_listmap_del h lm target
          = (1, { list := nclistset lm.list pos 0,
                  namemap := { count := lm.namemap.count - 1,
                               table := tableRemove (h target).name lm.namemap.table },
                  idmap := { count := lm.idmap.count - 1,
                             table := tableRemove (idKey (h target).id) lm.idmap.table } }) := by
        simp [NC_listmap_del, ht, ri, rn]
      rw [hdel]
      refine ⟨by simp, ?_⟩
      intro pos1 _ hp1
      cases hp1
      exact ⟨rfl, nclistget_set_same _ _, NC_hashmapget_remove_same hui ri,
        NC_hashmapget_remove_same hun rn⟩

/-- Witness for C10: `del` of `{x,1}` in scenario A. -/
theorem del_success_iff_witness :
    ((NC_listmap_del scenarioHeap scenarioA 1).1 = 1 ↔
      (NC_hashmapget scenarioA.idmap (idKey (scenarioHeap 1).id)).isSome ∧
      (NC_hashmapget scenarioA.namemap (scenarioHeap 1).name).isSome) ∧
    (∀ pos, (NC_listmap_del scenarioHeap scenarioA 1).1 = 1 →
      NC_hashmapget scenarioA.idmap (idKey (scenarioHeap 1).id) = some pos →
      (NC_listmap_del scenarioHeap scenarioA 1).2.list = nclistset scenarioA.list pos 0 ∧
      NC_listmap_ith (NC_listmap_del scenarioHeap scenarioA 1).2 pos = 0 ∧
      NC_hashmapget (NC_listmap_del scenarioHeap scenarioA 1).2.idmap
        (idKey (scenarioHeap 1).id) = none ∧
      NC_hashmapget (NC_listmap_del scenarioHeap scenarioA 1).2.namemap
        (scenarioHeap 1).name = none) :=
  del_success_iff scenarioHeap scenarioA 1 (by decide) (by decide) (by decide)

/-- C11: a failed `NC_listmap_del` of a non-null target.  When the target's
id is not registered, it returns 0 and the container is unchanged.  When the
id is registered but the name is not, it returns 0 with the vector and the
name index unchanged and the id index being the old one with the id removed
(no longer registered there): the removal is not atomic. -/
theorem del_failure_state (h : Heap) (lm : NC_listmap) (target : Ptr)
    (hui : lm.idmap.Unique) (ht : target ≠ 0) :
    (NC_hashmapget lm.idmap (idKey (h target).id) = none →
      NC_listmap_del h lm target = (0, lm)) ∧
    (∀ pos, NC_hashmapget lm.idmap (idKey (h target).id) = some pos →
      NC_hashmapget lm.namemap (h target).name = none →
      (NC_listmap_del h lm target).1 = 0 ∧
      (NC_listmap_del h lm target).2.list = lm.list ∧
      (NC_listmap_del h lm target).2.namemap = lm.namemap ∧
      NC_hashmapremove lm.idmap (idKey (h target).id)
        = some (pos, (NC_listmap_del h lm target).2.idmap) ∧
      NC_hashmapget (NC_listmap_del h lm target).2.idmap (idKey (h target).id) = none) := by
  constructor
  · intro hi
    have r := (NC_hashmapremove_none _ _).mpr hi
    simp [NC_listmap_del, ht, r]
  · intro pos hi hn
    have ri := NC_hashmapremove_of_get hi
    have rn := (NC_hashmapremove_none _ _).mpr hn
    have hdel : NC_listmap_del h lm target
        = (0, { list := lm.list, namemap := lm.namemap,
                idmap := { count := lm.idmap.count - 1,
                           table := tableRemove (idKey (h target).id) lm.idmap.table } }) := by
      simp [NC_listmap_del, ht, ri, rn]
    rw [hdel]
    exact ⟨rfl, rfl, rfl, ri, NC_hashmapget_remove_same hui ri⟩

/-- Witness for C11: in scenario A object 1 carries the name `z` when it is
removed; its id goes, the name is not found, and the result is
`scenarioHalfRemoved`. -/
theorem del_failure_state_witness :
    (NC_listmap_del (setName scenarioHeap 1 [122]) scenarioA 1).2 = scenarioHalfRemoved ∧
    ((NC_hashmapget scenarioA.idmap (idKey (setName scenarioHeap 1 [122] 1).id) = none →
      NC_listmap_del (setName scenarioHeap 1 [122]) scenarioA 1 = (0, scenarioA)) ∧
    (∀ pos, NC_hashmapget scenarioA.idmap (idKey (setName scenarioHeap 1 [122] 1).id)
        = some pos →
      NC_hashmapget scenarioA.namemap (setName scenarioHeap 1 [122] 1).name = none →
      (NC_listmap_del (setName scenarioHeap 1 [122]) scenarioA 1).1 = 0 ∧
      (NC_listmap_del (setName scenarioHeap 1 [122]) scenarioA 1).2.list = scenarioA.list ∧
      (NC_listmap_del (setName scenarioHeap 1 [122]) scenarioA 1).2.namemap
        = scenarioA.namemap ∧
      NC_hashmapremove scenarioA.idmap (idKey (setName scenarioHeap 1 [122] 1).id)
        = some (pos, (NC_listmap_del (setName scenarioHeap 1 [122]) scenarioA 1).2.idmap) ∧
      NC_hashmapget (NC_listmap_del (setName scenarioHeap 1 [122]) scenarioA 1).2.idmap
        (idKey (setName scenarioHeap 1 [122] 1).id) = none)) :=
  ⟨by decide,
   del_failure_state (setName scenarioHeap 1 [122]) scenarioA 1 (by decide) (by decide)⟩

/-- C12: `NC_listmap_idel` at a position at or beyond the length of the
vector, or at a position holding a hole, returns 0 and leaves the container
unchanged; at a position holding an entry it is `NC_listmap_del` of that
entry (same result, same state). -/
theorem idel_spec (h : Heap) (lm : NC_listmap) (p : Nat) :
    (nclistlength lm.list ≤ p ∨ lm.list[p]? = some 0 → NC_listmap_idel h lm p = (0, lm)) ∧
    (∀ e, lm.list[p]? = some e → e ≠ 0 →
      NC_listmap_idel h lm p = NC_listmap_del h lm e) := by
  constructor
  · intro hp
    have h0 : nclistget lm.list p = 0 := by
      rcases hp with hp | hp
      · exact nclistget_ge hp
      · exact nclistget_of_getElem? hp
    simp [NC_listmap_idel, h0]
  · intro e he he0
    have hg : nclistget lm.list p = e := nclistget_of_getElem? he
    simp [NC_listmap_idel, hg, he0]

/-- Witness for C12: in scenario B position 0 is a hole, position 7 is out of
range and position 1 holds object 2. -/
theorem idel_spec_witness :
    (nclistlength scenarioB.list ≤ 7 ∧ scenarioB.list[0]? = some 0 ∧
      scenarioB.list[1]? = some 2 ∧ (2 : Ptr) ≠ 0) ∧
    NC_listmap_idel scenarioHeap scenarioB 7 = (0, scenarioB) ∧
    NC_listmap_idel scenarioHeap scenarioB 0 = (0, scenarioB) ∧
    NC_listmap_idel scenarioHeap scenarioB 1 = NC_listmap_del scenarioHeap scenarioB 2 :=
  ⟨⟨by decide, by decide, by decide, by decide⟩,
   (idel_spec scenarioHeap scenarioB 7).1 (Or.inl (by decide)),
   (idel_spec scenarioHeap scenarioB 0).1 (Or.inr (by decide)),
   (idel_spec scenarioHeap scenarioB 1).2 2 (by decide) (by decide)⟩

/-- C13: with `n` the length of the vector, `NC_listmap_next` at cursor `i`
returns 0 exactly when `i >= n`, then with a `NULL` entry; otherwise it
returns `i + 1` (at least 1) and the value stored at position `i` (`NULL` for
a hole).  The loop of the usage comment therefore ends: it calls
`NC_listmap_next` `n + 1` times (any larger bound gives the result, no
smaller one does), runs its body `n` times and yields the values of the
vector, holes included, in position order. -/
theorem next_enumerates (lm : NC_listmap) :
    (∀ i, ((NC_listmap_next lm i).1 = 0 ↔ nclistlength lm.list ≤ i) ∧
      (nclistlength lm.list ≤ i → NC_listmap_next lm i = (0, 0)) ∧
      (i < nclistlength lm.list →
        NC_listmap_next lm i = (i + 1, NC_listmap_ith lm i) ∧ 1 ≤ (NC_listmap_next lm i).1)) ∧
    (∀ fuel, nclistlength lm.list < fuel → nextLoop lm fuel 0 = some lm.list) ∧
    (∀ fuel, fuel ≤ nclistlength lm.list → nextLoop lm fuel 0 = none) := by
  refine ⟨?_, ?_, ?_⟩
  · intro i
    refine ⟨⟨?_, fun hi => by rw [NC_listmap_next_ge hi]⟩, NC_listmap_next_ge, ?_⟩
    · intro h0
      by_contra hlt
      rw [NC_listmap_next_lt (by omega)] at h0
      exact Nat.succ_ne_zero i h0
    · intro hi
      rw [NC_listmap_next_lt hi]
      exact ⟨rfl, Nat.succ_le_succ (Nat.zero_le i)⟩
  · intro fuel hf
    have := nextLoop_drop lm fuel 0 (Nat.zero_le _) (by omega)
    simpa using this
  · intro fuel hf
    exact nextLoop_none lm fuel 0 (by omega)

/-- C14: `NC_listmap_add` of a non-null object succeeds on every container,
whether or not the name or the id is already registered: the vector grows by
one, the object is at the old length `n`, every position below `n` holds what
it held before, and both the name and the id are registered with position
`n`. -/
theorem add_appends (hash : List Nat → Nat) (h : Heap) (lm : NC_listmap) (obj : Ptr)
    (hobj : obj ≠ 0) :
    ∃ lm1, NC_listmap_add hash h lm obj = some (1, lm1) ∧
      nclistlength lm1.list = nclistlength lm.list + 1 ∧
      NC_listmap_ith lm1 (nclistlength lm.list) = obj ∧
      (∀ p, p < nclistlength lm.list → NC_listmap_ith lm1 p = NC_listmap_ith lm p) ∧
      NC_hashmapget lm1.namemap (h obj).name = some (nclistlength lm.list) ∧
      NC_hashmapget lm1.idmap (idKey (h obj).id) = some (nclistlength lm.list) := by
  refine ⟨_, NC_listmap_add_eq hash h lm hobj, ?_, ?_, ?_, ?_, ?_⟩
  · simp [nclistlength, nclistpush]
  · exact nclistget_push_len _ _
  · intro p hp; exact nclistget_push_lt hp
  · simp [NC_hashmapget_add, nclistlength]
  · simp [NC_hashmapget_add, nclistlength]

/-- Witness for C14: object 1 is added to scenario A, where its name and its
id are already registered with position 0. -/
theorem add_appends_witness :
    ((1 : Ptr) ≠ 0 ∧ NC_hashmapget scenarioA.namemap (scenarioHeap 1).name = some 0 ∧
      NC_hashmapget scenarioA.idmap (idKey (scenarioHeap 1).id) = some 0) ∧
    ∃ lm1, NC_listmap_add sampleHash scenarioHeap scenarioA 1 = some (1, lm1) ∧
      nclistlength lm1.list = nclistlength scenarioA.list + 1 ∧
      NC_listmap_ith lm1 (nclistlength scenarioA.list) = 1 ∧
      (∀ p, p < nclistlength scenarioA.list →
        NC_listmap_ith lm1 p = NC_listmap_ith scenarioA p) ∧
      NC_hashmapget lm1.namemap (scenarioHeap 1).name = some (nclistlength scenarioA.list) ∧
      NC_hashmapget lm1.idmap (idKey (scenarioHeap 1).id)
        = some (nclistlength scenarioA.list) :=
  ⟨⟨by decide, by decide, by decide⟩,
   add_appends sampleHash scenarioHeap scenarioA 1 (by decide)⟩

/-- C15 (amended): at a position at or beyond the length of the vector
`NC_listmap_ith` returns `NULL`, the same value it returns at a position in
range that holds a hole; `NC_listmap_next` tells the two apart, returning 0
beyond the length and `q + 1` at a hole `q`. -/
theorem ith_out_of_range (lm : NC_listmap) (p : Nat) (hp : nclistlength lm.list ≤ p) :
    NC_listmap_ith lm p = 0 ∧
    (∀ q, lm.list[q]? = some 0 →
      NC_listmap_ith lm q = NC_listmap_ith lm p ∧
      (NC_listmap_next lm q).1 = q + 1 ∧ (NC_listmap_next lm p).1 = 0) := by
  have h0 : NC_listmap_ith lm p = 0 := nclistget_ge hp
  refine ⟨h0, ?_⟩
  intro q hq
  have hq0 : NC_listmap_ith lm q = 0 := nclistget_of_getElem? hq
  have hlt : q < nclistlength lm.list := by
    by_contra hge
    have : lm.list[q]? = none := List.getElem?_eq_none (by simp [nclistlength] at hge; omega)
    rw [this] at hq; exact Option.noConfusion hq
  refine ⟨by rw [hq0, h0], ?_, ?_⟩
  · rw [NC_listmap_next_lt hlt]
  · rw [NC_listmap_next_ge hp]

/-- Witness for C15 (amended): in scenario B position 0 is a hole and
position 2 is beyond the length. -/
theorem ith_out_of_range_witness :
    (nclistlength scenarioB.list ≤ 2 ∧ scenarioB.list[0]? = some 0) ∧
    NC_listmap_ith scenarioB 2 = 0 ∧
    NC_listmap_ith scenarioB 0 = NC_listmap_ith scenarioB 2 ∧
    (NC_listmap_next scenarioB 0).1 = 0 + 1 ∧ (NC_listmap_next scenarioB 2).1 = 0 :=
  ⟨⟨by decide, by decide⟩,
   (ith_out_of_range scenarioB 2 (by decide)).1,
   (ith_out_of_range scenarioB 2 (by decide)).2 0 (by decide)⟩

/-- C15 (counterexample): in scenario B (vector `[NULL, y]`) `NC_listmap_ith`
returns the same value, `NULL`, at the hole 0 and at position 2 beyond the
length: the two results are not distinguishable. -/
theorem ith_hole_equals_out_of_range :
    scenarioB.list[0]? = some 0 ∧ nclistlength scenarioB.list ≤ 2 ∧
    NC_listmap_ith scenarioB 2 = NC_listmap_ith scenarioB 0 :=
  ⟨by decide, by decide, by decide⟩

/-- C16 (amended): `NC_listmap_verify` does not examine the id index: its
verdict is the same whatever the id index holds.  So on a container reached
by add, del, idel and rehash that has no hole and whose live names have
pairwise distinct hashes it still returns 1 after the id index has been
replaced by any other one, for instance one from which the id of a live
entry is missing or in which it is mapped to another position. -/
theorem verify_ignores_idmap (hash : List Nat → Nat) (h : Heap) (lm : NC_listmap)
    (idmap1 : NC_hashmap) :
    (NC_listmap_verify hash h { lm with idmap := idmap1 } 0).map Prod.fst
      = (NC_listmap_verify hash h lm 0).map Prod.fst ∧
    (Reachable hash h lm → 0 ∉ lm.list →
      (∀ a ∈ lm.list, ∀ b ∈ lm.list, hash (h a).name = hash (h b).name → a = b) →
      NC_listmap_verify hash h { lm with idmap := idmap1 } 0
        = some (1, { lm with idmap := idmap1 })) := by
  constructor
  · rw [verify_idmap]
    cases NC_listmap_verify hash h lm 0 <;> rfl
  · intro hr hno hinj
    rw [verify_idmap, verify_valid_of_no_hole hash h lm hr hno hinj]
    rfl

/-- Witness for C16 (amended): scenario A with the id index of
`scenarioHalfRemoved`, from which the id of object 1 is missing. -/
theorem verify_ignores_idmap_witness :
    (Reachable sampleHash scenarioHeap scenarioA ∧ 0 ∉ scenarioA.list ∧
      (∀ a ∈ scenarioA.list, ∀ b ∈ scenarioA.list,
        sampleHash (scenarioHeap a).name = sampleHash (scenarioHeap b).name → a = b)) ∧
    NC_listmap_verify sampleHash scenarioHeap
        { scenarioA with idmap := scenarioHalfRemoved.idmap } 0
      = some (1, { scenarioA with idmap := scenarioHalfRemoved.idmap }) :=
  ⟨⟨scenarioA_reachable, by decide, by decide⟩,
   (verify_ignores_idmap sampleHash scenarioHeap scenarioA scenarioHalfRemoved.idmap).2
     scenarioA_reachable (by decide) (by decide)⟩

/-- C16 (counterexample): `scenarioHalfRemoved` is scenario A after a failed
remove took the id of object 1 out of the id index.  Object 1 is live at
position 0, its id is missing from the id index, the vector and the name
index are those of scenario A, and `NC_listmap_verify` returns 1. -/
theorem verify_misses_id_mismatch :
    (NC_listmap_del (setName scenarioHeap 1 [122]) scenarioA 1).2 = scenarioHalfRemoved ∧
    NC_listmap_ith scenarioHalfRemoved 0 = 1 ∧
    NC_hashmapget scenarioHalfRemoved.idmap (idKey (scenarioHeap 1).id) = none ∧
    scenarioHalfRemoved.list = scenarioA.list ∧
    scenarioHalfRemoved.namemap = scenarioA.namemap ∧
    NC_listmap_verify sampleHash scenarioHeap scenarioHalfRemoved 0
      = some (1, scenarioHalfRemoved) :=
  ⟨by decide, by decide, by decide, by decide, by decide, by decide⟩

/-- C17: `NC_listmap_dup` returns `NULL` (`none`) when the vector has length
0; otherwise it returns a sequence of the same length that holds, at every
position, the pointer (or `NULL` hole) the vector holds there.  The function
only reads the container. -/
theorem dup_snapshot (lm : NC_listmap) :
    (nclistlength lm.list = 0 → NC_listmap_dup lm = none) ∧
    (nclistlength lm.list ≠ 0 →
      ∃ d, NC_listmap_dup lm = some d ∧ nclistlength d = nclistlength lm.list ∧
        ∀ p, nclistget d p = NC_listmap_ith lm p) := by
  constructor
  · intro h0; simp [NC_listmap_dup, h0]
  · intro h0
    exact ⟨lm.list, by simp [NC_listmap_dup, h0, nclistdup], rfl, fun _ => rfl⟩

/-- Witness for C17: the empty container and scenario B (with its hole). -/
theorem dup_snapshot_witness :
    NC_listmap_dup (NC_listmap_init 0).2 = none ∧
    ∃ d, NC_listmap_dup scenarioB = some d ∧ nclistlength d = nclistlength scenarioB.list ∧
      ∀ p, nclistget d p = NC_listmap_ith scenarioB p :=
  ⟨(dup_snapshot (NC_listmap_init 0).2).1 (by decide),
   (dup_snapshot scenarioB).2 (by decide)⟩

/-- C18 (amended): let the vector hold an entry `e` such that no occupied
slot of the name index stores the hash of the name of `e`.  When the vector
has no hole and the count of the name index is not 0, `NC_listmap_verify`
returns 0.  When the count is 0 the vector walk is skipped, and with no
occupied slot in the name index `NC_listmap_verify` returns 1 and leaves the
container as it was. -/
theorem verify_flags_unrepresented (hash : List Nat → Nat) (h : Heap) (lm : NC_listmap)
    (e : Ptr) (he : e ∈ lm.list)
    (hun : ∀ s ∈ lm.namemap.table, s.flags % 2 = 1 → s.hashkey ≠ hash (h e).name) :
    (0 ∉ lm.list → lm.namemap.count ≠ 0 →
      ∃ lm1, NC_listmap_verify hash h lm 0 = some (0, lm1)) ∧
    (lm.namemap.count = 0 → (∀ s ∈ lm.namemap.table, s.flags % 2 = 0) →
      NC_listmap_verify hash h lm 0 = some (1, lm)) := by
  constructor
  · intro hno hcount
    have hlen : nclistlength lm.list ≠ 0 := by
      have := List.length_pos_of_mem he
      simp only [nclistlength]; omega
    obtain ⟨t1, n1, hw, _⟩ := walk_total hash h lm.list lm.namemap.table
      (verifyMapToVector h lm.list lm.namemap.table 0) hno
    have hpos : 0 < n1 := lt_of_le_of_lt (Nat.zero_le _)
      (walk_unmatched hash h e lm.list _ _ _ _ hno he hun hw)
    have hfin : 0 < countUnmarked t1 n1 := lt_of_lt_of_le hpos (countUnmarked_le t1 n1)
    refine ⟨{ lm with namemap := { lm.namemap with table := clearTouched t1 } }, ?_⟩
    simp only [NC_listmap_verify, ne_eq, not_true_eq_false, false_and, if_false, hlen, hcount,
      or_self, hw, hfin, if_true]
  · intro hcount hfree
    have hmv : verifyMapToVector h lm.list lm.namemap.table 0 = 0 := by
      apply verifyMapToVector_clean
      intro s hs hact
      have := hfree s hs
      omega
    simp [NC_listmap_verify, hcount, hmv]

/-- Witness for C18 (amended): in scenario A object 1 carries the name `z`,
whose hash no slot stores; in `orphanState` the name index is empty. -/
theorem verify_flags_unrepresented_witness :
    ((1 : Ptr) ∈ scenarioA.list ∧
      (∀ s ∈ scenarioA.namemap.table, s.flags % 2 = 1 →
        s.hashkey ≠ sampleHash (setName scenarioHeap 1 [122] 1).name) ∧
      0 ∉ scenarioA.list ∧ scenarioA.namemap.count ≠ 0) ∧
    (∃ lm1, NC_listmap_verify sampleHash (setName scenarioHeap 1 [122]) scenarioA 0
      = some (0, lm1)) ∧
    NC_listmap_verify sampleHash dupNameHeap orphanState 0 = some (1, orphanState) :=
  ⟨⟨by decide, by decide, by decide, by decide⟩,
   (verify_flags_unrepresented sampleHash (setName scenarioHeap 1 [122]) scenarioA 1
     (by decide) (by decide)).1 (by decide) (by decide),
   (verify_flags_unrepresented sampleHash dupNameHeap orphanState 1
     (by decide) (by decide)).2 (by decide) (by decide)⟩

/-- C18 (counterexample): after `init(0)`, `add {x,1}`, `add {x,2}` and
`del` of object 2 the vector is `[1, NULL]` and the name index is empty
(count 0).  Object 1 is live and no slot stores the hash of its name, yet
`NC_listmap_verify` returns 1. -/
theorem verify_skips_empty_index :
    addAll sampleHash dupNameHeap [1, 2] (NC_listmap_init 0).2 = some dupNameState ∧
    NC_listmap_del dupNameHeap dupNameState 2 = (1, orphanState) ∧
    NC_listmap_ith orphanState 0 = 1 ∧ orphanState.namemap.count = 0 ∧
    (∀ s ∈ orphanState.namemap.table, s.flags &&& 1 = 0) ∧
    NC_listmap_verify sampleHash dupNameHeap orphanState 0 = some (1, orphanState) :=
  ⟨by decide, by decide, by decide, by decide, by decide, by decide⟩

/-- C19: a container holds the live entry `A` at position `p`, registered
there under its id; `B` is another non-null object with the name of `A` and
an id that is not registered.  Then `NC_listmap_add` of `B` succeeds, after
which `NC_listmap_get` of the name returns `B`, not `A`, while `A` is still
at position `p` and still returned by `NC_listmap_iget` of its id. -/
theorem add_overwrites_name (hash : List Nat → Nat) (h : Heap) (lm : NC_listmap)
    (A B : Ptr) (p : Nat) (hA0 : A ≠ 0) (hB0 : B ≠ 0) (hAB : B ≠ A)
    (hpos : nclistget lm.list p = A)
    (hAid : NC_hashmapget lm.idmap (idKey (h A).id) = some p)
    (hname : (h B).name = (h A).name)
    (hBid : NC_hashmapget lm.idmap (idKey (h B).id) = none) :
    ∃ lm1, NC_listmap_add hash h lm B = some (1, lm1) ∧
      NC_listmap_get lm1 (h A).name = B ∧ NC_listmap_get lm1 (h A).name ≠ A ∧
      NC_listmap_ith lm1 p = A ∧ NC_listmap_iget lm1 (h A).id = A := by
  have hplt : p < lm.list.length := nclistget_lt (by rw [hpos]; exact hA0)
  have hkey : idKey (h A).id ≠ idKey (h B).id := by
    intro e; rw [e, hBid] at hAid; exact Option.noConfusion hAid
  have hget : NC_listmap_get
      { list := nclistpush lm.list B,
        namemap := NC_hashmapadd hash lm.namemap lm.list.length (h B).name,
        idmap := NC_hashmapadd hash lm.idmap lm.list.length (idKey (h B).id) } (h A).name
        = B := by
    simp [NC_listmap_get, NC_hashmapget_add, hname, nclistget_push_len]
  refine ⟨_, NC_listmap_add_eq hash h lm hB0, hget, by rw [hget]; exact hAB, ?_, ?_⟩
  · simp only [NC_listmap_ith, nclistget_push_lt hplt]; exact hpos
  · simp only [NC_listmap_iget, NC_hashmapget_add, hkey, if_false, hAid,
      nclistget_push_lt hplt]
    exact hpos

/-- Witness for C19: scenario A holds object 1 (`x`, id 1) at position 0;
object 3 is given the name `x` and has the unregistered id 0. -/
theorem add_overwrites_name_witness :
    ((1 : Ptr) ≠ 0 ∧ (3 : Ptr) ≠ 0 ∧ (3 : Ptr) ≠ 1 ∧ nclistget scenarioA.list 0 = 1 ∧
      NC_hashmapget scenarioA.idmap (idKey (setName scenarioHeap 3 [120] 1).id) = some 0 ∧
      (setName scenarioHeap 3 [120] 3).name = (setName scenarioHeap 3 [120] 1).name ∧
      NC_hashmapget scenarioA.idmap (idKey (setName scenarioHeap 3 [120] 3).id) = none) ∧
    ∃ lm1, NC_listmap_add sampleHash (setName scenarioHeap 3 [120]) scenarioA 3
        = some (1, lm1) ∧
      NC_listmap_get lm1 (setName scenarioHeap 3 [120] 1).name = 3 ∧
      NC_listmap_get lm1 (setName scenarioHeap 3 [120] 1).name ≠ 1 ∧
      NC_listmap_ith lm1 0 = 1 ∧
      NC_listmap_iget lm1 (setName scenarioHeap 3 [120] 1).id = 1 :=
  ⟨⟨by decide, by decide, by decide, by decide, by decide, by decide, by decide⟩,
   add_overwrites_name sampleHash (setName scenarioHeap 3 [120]) scenarioA 1 3 0
     (by decide) (by decide) (by decide) (by decide) (by decide) (by decide) (by decide)⟩

/-- C20: in every state reachable from `NC_listmap_init` by add (distinct
names and ids), del / idel of stored entries and rehash, with the heap
unchanged, `NC_listmap_get` of a name returns an entry (non-`NULL`) exactly
when some live entry of the vector has that name, and then it returns that
entry: a live entry of the vector with that name, equal to every live entry
with that name.  The same holds for `NC_listmap_iget` and ids (`size_t`
values). -/
theorem lookup_sound_complete (hash : List Nat → Nat) (h : Heap) (lm : NC_listmap)
    (hr : Reachable hash h lm) :
    (∀ n, (NC_listmap_get lm n ≠ 0 ↔ ∃ e ∈ lm.list, e ≠ 0 ∧ (h e).name = n) ∧
      (NC_listmap_get lm n ≠ 0 →
        NC_listmap_get lm n ∈ lm.list ∧ (h (NC_listmap_get lm n)).name = n) ∧
      (∀ e ∈ lm.list, e ≠ 0 → (h e).name = n → NC_listmap_get lm n = e)) ∧
    (∀ i, i < 2 ^ 64 →
      (NC_listmap_iget lm i ≠ 0 ↔ ∃ e ∈ lm.list, e ≠ 0 ∧ (h e).id = i) ∧
      (NC_listmap_iget lm i ≠ 0 →
        NC_listmap_iget lm i ∈ lm.list ∧ (h (NC_listmap_iget lm i)).id = i) ∧
      (∀ e ∈ lm.list, e ≠ 0 → (h e).id = i → NC_listmap_iget lm i = e)) := by
  have hinv := Reachable_Inv hr
  constructor
  · intro n
    have hfound : NC_listmap_get lm n ≠ 0 →
        NC_listmap_get lm n ∈ lm.list ∧ (h (NC_listmap_get lm n)).name = n := by
      intro hne
      unfold NC_listmap_get at hne ⊢
      cases hg : NC_hashmapget lm.namemap n with
      | none => simp [hg] at hne
      | some p =>
        simp only [hg] at hne ⊢
        exact ⟨nclistget_mem_of_ne hne, (hinv.nameBack n p hg).2⟩
    have hall : ∀ e ∈ lm.list, e ≠ 0 → (h e).name = n → NC_listmap_get lm n = e := by
      intro e he he0 hn
      rw [← hn]; exact (Inv_get hinv he he0).1
    refine ⟨⟨fun hne => ⟨_, (hfound hne).1, hne, (hfound hne).2⟩, ?_⟩, hfound, hall⟩
    rintro ⟨e, he, he0, hn⟩
    rw [hall e he he0 hn]; exact he0
  · intro i hi
    have hfound : NC_listmap_iget lm i ≠ 0 →
        NC_listmap_iget lm i ∈ lm.list ∧ (h (NC_listmap_iget lm i)).id = i := by
      intro hne
      unfold NC_listmap_iget at hne ⊢
      cases hg : NC_hashmapget lm.idmap (idKey i) with
      | none => simp [hg] at hne
      | some p =>
        simp only [hg] at hne ⊢
        exact ⟨nclistget_mem_of_ne hne,
          idKey_inj (hinv.sizet p hne) hi (hinv.idBack _ p hg).2⟩
    have hall : ∀ e ∈ lm.list, e ≠ 0 → (h e).id = i → NC_listmap_iget lm i = e := by
      intro e he he0 hn
      rw [← hn]; exact (Inv_get hinv he he0).2
    refine ⟨⟨fun hne => ⟨_, (hfound hne).1, hne, (hfound hne).2⟩, ?_⟩, hfound, hall⟩
    rintro ⟨e, he, he0, hn⟩
    rw [hall e he he0 hn]; exact he0

/-- Witness for C20: scenario B, with its hole, is reachable. -/
theorem lookup_sound_complete_witness :
    Reachable sampleHash scenarioHeap scenarioB ∧
    (∀ n, (NC_listmap_get scenarioB n ≠ 0 ↔
        ∃ e ∈ scenarioB.list, e ≠ 0 ∧ (scenarioHeap e).name = n) ∧
      (NC_listmap_get scenarioB n ≠ 0 →
        NC_listmap_get scenarioB n ∈ scenarioB.list ∧
        (scenarioHeap (NC_listmap_get scenarioB n)).name = n) ∧
      (∀ e ∈ scenarioB.list, e ≠ 0 → (scenarioHeap e).name = n →
        NC_listmap_get scenarioB n = e)) ∧
    (∀ i, i < 2 ^ 64 →
      (NC_listmap_iget scenarioB i ≠ 0 ↔
        ∃ e ∈ scenarioB.list, e ≠ 0 ∧ (scenarioHeap e).id = i) ∧
      (NC_listmap_iget scenarioB i ≠ 0 →
        NC_listmap_iget scenarioB i ∈ scenarioB.list ∧
        (scenarioHeap (NC_listmap_iget scenarioB i)).id = i) ∧
      (∀ e ∈ scenarioB.list, e ≠ 0 → (scenarioHeap e).id = i →
        NC_listmap_iget scenarioB i = e)) :=
  ⟨scenarioB_reachable,
   lookup_sound_complete sampleHash scenarioHeap scenarioB scenarioB_reachable⟩

end NCListmap
